import Mathlib

/-!
Verification model of the console-slog Handler (handler.go) and the parts of its
encoder that the specification describes. Pure rendering behaviour is modelled as
functions on lists of characters; the Go slice aliasing behaviour of WithAttrs,
extractHeaders and the header-slot copy inside Handle is modelled with an explicit
heap of allocations. Definitions translated from handler.go cite its line numbers;
definitions for code of the repository that is not under src (the encoder, buffer
and duration formatter) are modelled from the spec and say so.
-/

set_option maxRecDepth 8000

namespace ConsoleSlog

/-- Decimal digit character. -/
def digCh : Nat → Char
  | 0 => '0'
  | 1 => '1'
  | 2 => '2'
  | 3 => '3'
  | 4 => '4'
  | 5 => '5'
  | 6 => '6'
  | 7 => '7'
  | 8 => '8'
  | _ => '9'

/-- Decimal digits of a natural number, most significant first; fuel-based so that
it is structurally recursive and reduces inside the kernel. -/
def natCharsAux : Nat → Nat → List Char
  | 0, _ => []
  | fuel + 1, n => if n < 10 then [digCh n] else natCharsAux fuel (n / 10) ++ [digCh (n % 10)]

/-- Decimal digits of a natural number. -/
def natChars (n : Nat) : List Char := natCharsAux (n + 1) n

/-- Decimal rendering of a natural number as a string. -/
def natStr (n : Nat) : String := ⟨natChars n⟩

/-- Signed offset suffix for level abbreviations: empty for zero, "+N" or "-N"
otherwise. -/
def intSuffix (d : Int) : String :=
  if d = 0 then "" else if 0 < d then "+" ++ natStr d.toNat else "-" ++ natStr (-d).toNat

/-- Modelled from the spec: the encoder writeLevel abbreviation (the encoder source
is not under src) — a fixed three letter code per severity band with a numeric
offset suffix when the level falls between named bands. -/
def levelAbbrev (l : Int) : String :=
  if l < 0 then "DBG" ++ intSuffix (l + 4)
  else if l < 4 then "INF" ++ intSuffix l
  else if l < 8 then "WRN" ++ intSuffix (l - 4)
  else "ERR" ++ intSuffix (l - 8)

/-- Modelled from the spec: the closed variant of attribute values the claims need —
plain text values (every scalar kind after resolution renders as text), the resolved
synthetic call-site value, and nested groups. -/
inductive AValue : Type where
  | str : String → AValue
  | srcv : Nat → AValue
  | group : List (String × AValue) → AValue

instance : Inhabited AValue := ⟨AValue.str ""⟩

/-- An attribute: a key and a value. -/
abbrev GAttr := String × AValue

/-- The zero attribute (Go slog.Attr zero value). -/
def zeroAttr : GAttr := ("", AValue.str "")

/-- Whether a value is the empty value (suppresses the field per the spec). -/
def isEmptyVal : AValue → Bool
  | AValue.str s => decide (s = "")
  | _ => false

/-- Whether an attribute is the zero attribute (empty key and empty value). -/
def isZero (a : GAttr) : Bool := decide (a.1 = "") && isEmptyVal a.2

/-- A record of one invocation point of the configured rewrite hook. -/
inductive HookCall : Type where
  | ts : HookCall
  | lvl : HookCall
  | msg : HookCall
  | srcF : HookCall
  | leaf : List String → String → HookCall
deriving DecidableEq

/-- The rewrite hook: receives the group path and the attribute and returns the
substituted attribute. -/
abbrev Hook := Option (List String → GAttr → GAttr)

/-- Apply the hook when configured, otherwise the identity. -/
def applyHook (hk : Hook) (pfx : List String) (a : GAttr) : GAttr :=
  match hk with
  | none => a
  | some f => f pfx a

mutual

/-- Modelled from the spec: the textual form of a value. -/
def valChars : AValue → List Char
  | .str s => s.data
  | .srcv pc => ("src:" ++ natStr pc).data
  | .group as => groupChars as

/-- Modelled from the spec: the textual form of the attribute list of a group when
a group value is substituted in by the hook. -/
def groupChars : List GAttr → List Char
  | [] => []
  | (k, v) :: rest => k.data ++ '=' :: valChars v ++ groupChars rest

end

/-- Dot-joined qualified key under a group path. -/
def joinKey (pfx : List String) (k : String) : String :=
  String.intercalate "." (pfx ++ [k])

/-- Modelled from the spec: rendering of one non-group attribute as a leading-space
key=value token — the zero attribute is never emitted, the hook is invoked once per
non-empty leaf, and a substituted empty value suppresses the token. -/
def leafRender (hk : Hook) (pfx : List String) (k : String) (v : AValue) (isSrc : Bool) :
    List Char × List HookCall :=
  if isZero (k, v) then ([], [])
  else
    let call := if isSrc then HookCall.srcF else HookCall.leaf pfx k
    let kv := applyHook hk pfx (k, v)
    if isEmptyVal kv.2 then ([], [call])
    else (' ' :: (joinKey pfx kv.1).data ++ '=' :: valChars kv.2, [call])

mutual

/-- Resolved leaves of one value: a group yields the leaves of its children, any
other value is itself a leaf (signalled by none). -/
def leavesV : AValue → Option (List (List String × GAttr))
  | AValue.group as => some (leavesLL as)
  | _ => none

/-- Resolved leaves of an attribute list, each tagged with its group path relative
to the list: an empty group key inlines the children, a non-empty key prefixes
their paths. -/
def leavesLL : List GAttr → List (List String × GAttr)
  | [] => []
  | (k, v) :: rest =>
    (match leavesV v with
     | some ls => if k = "" then ls else ls.map (fun t => (k :: t.1, t.2))
     | none => [([], (k, v))]) ++ leavesLL rest

end

/-- Resolved leaves of one attribute with their relative group paths. -/
def leavesOf (a : GAttr) : List (List String × GAttr) := leavesLL [a]

/-- Whether a value is the synthetic call-site value. -/
def isSrcVal : AValue → Bool
  | AValue.srcv _ => true
  | _ => false

/-- Modelled from the spec: writeAttr of the encoder — traverse the attribute
depth first (groups are never rendered themselves: an empty group key inlines the
children, a non-empty key extends the group path), invoke the hook once per
resolved non-zero leaf with its accumulated path, and render each leaf as a
key=value token; the synthetic call-site attribute is a builtin and sees an empty
group path. -/
def renderA (hk : Hook) (pfx : List String) (a : GAttr) : List Char × List HookCall :=
  ((leavesOf a).map (fun t =>
    if isSrcVal t.2.2 then leafRender hk [] t.2.1 t.2.2 true
    else leafRender hk (pfx ++ t.1) t.2.1 t.2.2 false)).foldr
    (fun r acc => (r.1 ++ acc.1, r.2 ++ acc.2)) ([], [])

/-- The hook invocation points the spec assigns to one resolved leaf: none when it
is the zero attribute, the source marker for the call-site leaf, and the leaf key
under its accumulated group path otherwise. -/
def leafCall (pfx : List String) (t : List String × GAttr) : List HookCall :=
  if isZero t.2 then []
  else if isSrcVal t.2.2 then [HookCall.srcF]
  else [HookCall.leaf (pfx ++ t.1) t.2.1]

/-- The hook invocation points of one attribute: exactly its resolved leaves,
never a group attribute itself. -/
def leavesCalls (pfx : List String) (a : GAttr) : List HookCall :=
  ((leavesOf a).map (leafCall pfx)).flatten

/-- Whether an attribute has no call-site value among its resolved leaves. -/
def noSrcA (a : GAttr) : Bool := (leavesOf a).all (fun t => !isSrcVal t.2.2)

/-- Whether an attribute list has no call-site value among its resolved leaves. -/
def noSrcAttrs (as : List GAttr) : Bool := as.all noSrcA

/-- The functional view of the Handler state (handler.go lines 84-91): options,
group path, pre-rendered bound context bytes, and stored header slots. -/
structure FHandler where
  addSource : Bool
  level : Int
  headerKeys : List String
  headerWidth : Nat
  rw : Hook
  groups : List String
  context : List Char
  headers : List GAttr

/-- The options given to NewHandler. -/
structure FOptions where
  addSource : Bool
  level : Option Int
  headerKeys : List String
  headerWidth : Nat
  rw : Hook

/-- NewHandler (handler.go lines 98-118): the threshold defaults to the info level
(0) when no Level option is given, and one empty header slot is allocated per
configured header key. -/
def newHandlerF (opts : FOptions) : FHandler :=
  { addSource := opts.addSource
    level := opts.level.getD 0
    headerKeys := opts.headerKeys
    headerWidth := opts.headerWidth
    rw := opts.rw
    groups := []
    context := []
    headers := List.replicate opts.headerKeys.length zeroAttr }

/-- Enabled (handler.go lines 121-123): true iff the record level is at least the
configured threshold. -/
def enabledF (h : FHandler) (l : Int) : Bool := decide (h.level ≤ l)

/-- One log record as Handle sees it: a zero time means omit the timestamp, a zero
pc means the call-site token is absent. -/
structure GoRecord where
  time : Nat
  level : Int
  message : String
  pc : Nat
  attrs : List GAttr

/-- Modelled from the spec: writeTimestamp of the encoder — a zero time is omitted
entirely and the hook is not invoked; otherwise the hook is invoked with an empty
group path and the (possibly substituted) value is rendered followed by a space. -/
def writeTimestamp (hk : Hook) (t : Nat) : List Char × List HookCall :=
  if t = 0 then ([], [])
  else
    let kv := applyHook hk [] ("time", AValue.str (natStr t))
    if isEmptyVal kv.2 then ([], [HookCall.ts])
    else (valChars kv.2 ++ [' '], [HookCall.ts])

/-- Modelled from the spec: writeLevel of the encoder — the hook is invoked with an
empty group path; an empty substituted value suppresses the field. -/
def writeLevel (hk : Hook) (l : Int) : List Char × List HookCall :=
  let kv := applyHook hk [] ("level", AValue.str (levelAbbrev l))
  if isEmptyVal kv.2 then ([], [HookCall.lvl])
  else (valChars kv.2 ++ [' '], [HookCall.lvl])

/-- Modelled from the spec: writeMessage of the encoder — the hook is invoked with
an empty group path. -/
def writeMessage (hk : Hook) (m : String) : List Char × List HookCall :=
  let kv := applyHook hk [] ("msg", AValue.str m)
  if isEmptyVal kv.2 then ([], [HookCall.msg])
  else (valChars kv.2, [HookCall.msg])

/-- The key of the source field. -/
def sourceKey : String := "source"

/-- Handle lines 140-147: the synthetic source attribute added to the record when
AddSource is set and the record carries a call-site program counter. -/
def sourceAttr (pc : Nat) : GAttr := (sourceKey, AValue.srcv pc)

/-- The attribute sequence Handle walks: the record attributes, with the synthetic
source attribute appended exactly when AddSource is set and pc is nonzero
(handler.go lines 140-147). -/
def walkedAttrs (h : FHandler) (rec : GoRecord) : List GAttr :=
  rec.attrs ++ (if h.addSource ∧ 0 < rec.pc then [sourceAttr rec.pc] else [])

/-- State of the attribute walk of Handle (handler.go lines 149-218). -/
structure LoopSt where
  localHeaders : Bool
  headers : List GAttr
  middle : List Char
  trailer : List Char
  calls : List HookCall

/-- One step of the attribute walk (handler.go lines 151-218): a header-key match is
stored into the slot array by index (the first match switches to the local copy);
otherwise the attribute is rendered speculatively onto middle, and when the bytes
just appended contain a line break they are moved whole to trailer and the middle
write position is rolled back. -/
def attrStep (h : FHandler) (st : LoopSt) (a : GAttr) : LoopSt :=
  match h.headerKeys.findIdx? (fun s => s = a.1) with
  | some idx =>
    { st with localHeaders := true, headers := st.headers.set idx a }
  | none =>
    let r := renderA h.rw h.groups a
    let grown := st.middle ++ r.1
    let lastAttr := grown.drop st.middle.length
    if '\n' ∈ lastAttr then
      { st with middle := grown.take st.middle.length
                trailer := st.trailer ++ lastAttr
                calls := st.calls ++ r.2 }
    else
      { st with middle := grown, calls := st.calls ++ r.2 }

/-- The attribute walk of Handle as a fold. -/
def attrLoop (h : FHandler) (st : LoopSt) (as : List GAttr) : LoopSt :=
  as.foldl (attrStep h) st

/-- The loop state at the start of the walk: the middle buffer already holds the
level abbreviation, the message and the bound context (handler.go lines 134-138),
the header slots are the inherited ones. -/
def initSt (h : FHandler) (rec : GoRecord) : LoopSt :=
  { localHeaders := false
    headers := h.headers
    middle := (writeLevel h.rw rec.level).1 ++ (writeMessage h.rw rec.message).1 ++ h.context
    trailer := []
    calls := [] }

/-- The loop state after the walk. -/
def loopResult (h : FHandler) (rec : GoRecord) : LoopSt :=
  attrLoop h (initSt h rec) (walkedAttrs h rec)

/-- Modelled from the spec: one header slot rendered (fixed-width padding is
abstracted as plain rendering); an empty slot writes nothing. -/
def headerTok (a : GAttr) : List Char :=
  if isZero a then [] else valChars a.2 ++ [' ']

/-- Handle lines 220-234: the header slots written to the header buffer after the
walk (both the fixed-width branch and the natural-width branch write every slot in
the model, and no configured slots write nothing). -/
def headersOut (slots : List GAttr) : List Char :=
  (slots.map headerTok).flatten

/-- The single concatenated byte run Handle writes (handler.go lines 236-247):
header, then middle, then trailer, terminated by a newline appended to middle when
there was no relocated attribute and to trailer otherwise. -/
def assembled (h : FHandler) (rec : GoRecord) : List Char :=
  let st := loopResult h rec
  (writeTimestamp h.rw rec.time).1 ++ headersOut st.headers ++
    (if st.trailer = [] then st.middle ++ ['\n'] else st.middle ++ (st.trailer ++ ['\n']))

/-- The observable outcome of one Handle call. -/
structure HandleOut where
  headerB : List Char
  middleB : List Char
  trailerB : List Char
  writes : List (List Char)
  res : Option String
  freed : Bool
  calls : List HookCall

/-- Handle (handler.go lines 126-255): render the buffers, walk the attributes,
assemble, and issue a single write; the sink error is returned unchanged and the
encoder is released back to the pool only on the success path (line 253 is not
reached on the early return of line 250). -/
def handleModel (h : FHandler) (out : List Char → Option String) (rec : GoRecord) :
    HandleOut :=
  let st := loopResult h rec
  { headerB := (writeTimestamp h.rw rec.time).1 ++ headersOut st.headers
    middleB := st.middle
    trailerB := st.trailer
    writes := [assembled h rec]
    res := out (assembled h rec)
    freed := (out (assembled h rec)).isNone
    calls := (writeTimestamp h.rw rec.time).2 ++ (writeLevel h.rw rec.level).2 ++
      (writeMessage h.rw rec.message).2 ++ st.calls }

/-- extractHeaders (handler.go lines 296-313) as a function: the updated stored
slots and the attribute list with every extracted entry replaced by the zero
attribute. -/
def extractHeadersF (keys : List String) : List GAttr → List GAttr → List GAttr × List GAttr
  | stored, [] => (stored, [])
  | stored, a :: rest =>
    match keys.findIdx? (fun s => s = a.1) with
    | some idx =>
      let r := extractHeadersF keys (stored.set idx a) rest
      (r.1, zeroAttr :: r.2)
    | none =>
      let r := extractHeadersF keys stored rest
      (r.1, a :: r.2)

/-- WithAttrs (handler.go lines 258-274) functionally: extract headers, render the
remaining attributes after the inherited context, keep the rest of the state. -/
def withAttrsF (h : FHandler) (attrs : List GAttr) : FHandler :=
  let ex := extractHeadersF h.headerKeys h.headers attrs
  { h with
    context := h.context ++ (ex.2.map (fun a => (renderA h.rw h.groups a).1)).flatten
    headers := ex.1 }

/-- WithGroup (handler.go lines 277-291): trim the name and append it to the group
path; nothing else changes. -/
def withGroupF (h : FHandler) (name : String) : FHandler :=
  { h with groups := h.groups ++ [name.trim] }

/-- The rendered tokens the walk writes inline or relocates: one token per walked
attribute that does not match a configured header key. -/
def walkToks (keys : List String) (hk : Hook) (pfx : List String) (as : List GAttr) :
    List (List Char) :=
  as.filterMap (fun a =>
    match keys.findIdx? (fun s => s = a.1) with
    | some _ => none
    | none => some (renderA hk pfx a).1)

/-- The hook invocation points of the walk: nothing for header-key matches, the
resolved leaves for everything else. -/
def walkCalls (keys : List String) (pfx : List String) (as : List GAttr) :
    List HookCall :=
  (as.map (fun a =>
    match keys.findIdx? (fun s => s = a.1) with
    | some _ => []
    | none => leavesCalls pfx a)).flatten

/-- The header slots after the walk: each matching walked attribute stored at the
index of its key. -/
def applyMatches (keys : List String) (slots : List GAttr) (as : List GAttr) : List GAttr :=
  as.foldl (fun acc a =>
    match keys.findIdx? (fun s => s = a.1) with
    | some idx => acc.set idx a
    | none => acc) slots

/-! ### The Go slice and heap model

Aliasing claims (WithAttrs mutating its argument, copy-on-write of header slots,
clip of the derived context) need Go slice semantics: a slice header pointing into
a heap of backing arrays, with append writing in place into spare capacity and
reallocating otherwise. -/

/-- A heap of allocations: a backing list per allocation identifier and the next
fresh identifier. -/
structure GHeap (α : Type) where
  data : Nat → List α
  next : Nat

/-- A Go slice header: allocation identifier, offset, length and capacity. -/
structure GoSlice where
  id : Nat
  off : Nat
  len : Nat
  cap : Nat

/-- The visible contents of a slice. -/
def GHeap.read (hp : GHeap α) (s : GoSlice) : List α :=
  ((hp.data s.id).drop s.off).take s.len

/-- Overwrite a region of a backing list starting at a position. -/
def overwrite (l : List α) (pos : Nat) (bs : List α) : List α :=
  l.take pos ++ bs ++ l.drop (pos + bs.length)

/-- Write bytes into one allocation at a position. -/
def GHeap.writeAt (hp : GHeap α) (i pos : Nat) (bs : List α) : GHeap α :=
  { hp with data := fun j => if j = i then overwrite (hp.data i) pos bs else hp.data j }

/-- Go append semantics: write in place into spare capacity when it suffices, else
allocate a fresh backing array with grown capacity and copy. -/
def sliceAppend [Inhabited α] (hp : GHeap α) (s : GoSlice) (bs : List α) :
    GHeap α × GoSlice :=
  if s.len + bs.length ≤ s.cap then
    (hp.writeAt s.id (s.off + s.len) bs, { s with len := s.len + bs.length })
  else
    let newlen := s.len + bs.length
    let newcap := max newlen (2 * s.cap)
    let content := hp.read s ++ bs ++ List.replicate (newcap - newlen) default
    ({ data := fun j => if j = hp.next then content else hp.data j, next := hp.next + 1 },
     { id := hp.next, off := 0, len := newlen, cap := newcap })

/-- Clip (handler.go line 265): restrict the capacity to the length. -/
def GoSlice.clip (s : GoSlice) : GoSlice := { s with cap := s.len }

/-- The two heaps the handler state lives in: context bytes and header-slot
attributes. -/
structure Heaps where
  ch : GHeap Char
  ah : GHeap GAttr

/-- The Handler with its context as a slice of the byte heap and its header slots
as a slice of the attribute heap (handler.go lines 84-91). -/
structure HHandler where
  addSource : Bool
  level : Int
  headerKeys : List String
  headerWidth : Nat
  rw : Hook
  groups : List String
  ctx : GoSlice
  hdrs : GoSlice

/-- Read the heap handler into its functional view. -/
def toFunc (hs : Heaps) (h : HHandler) : FHandler :=
  { addSource := h.addSource
    level := h.level
    headerKeys := h.headerKeys
    headerWidth := h.headerWidth
    rw := h.rw
    groups := h.groups
    context := hs.ch.read h.ctx
    headers := hs.ah.read h.hdrs }

/-- One step of extractHeaders (handler.go lines 299-311) over the attribute heap:
read the entry, and on a header-key match copy the stored slots into a fresh
backing array on the first match, store the entry by index, and overwrite the
entry in the callers slice with the zero attribute, in place. -/
def extractStep (keys : List String) (attrs : GoSlice)
    (acc : GHeap GAttr × Bool × GoSlice) (i : Nat) : GHeap GAttr × Bool × GoSlice :=
  let ah := acc.1
  let changed := acc.2.1
  let stored := acc.2.2
  let a := (ah.read attrs).getD i zeroAttr
  match keys.findIdx? (fun s => s = a.1) with
  | some idx =>
    let tmp :=
      if changed then (ah, stored)
      else
        ({ data := fun j => if j = ah.next then ah.read stored else ah.data j
           next := ah.next + 1 },
         { id := ah.next, off := 0, len := stored.len, cap := stored.len })
    let ah2 := tmp.1.writeAt tmp.2.id (tmp.2.off + idx) [a]
    let ah3 := ah2.writeAt attrs.id (attrs.off + i) [zeroAttr]
    (ah3, true, tmp.2)
  | none => (ah, changed, stored)

/-- extractHeaders (handler.go lines 296-313) over the attribute heap. -/
def extractHeadersH (keys : List String) (ah : GHeap GAttr) (stored attrs : GoSlice) :
    GHeap GAttr × Bool × GoSlice :=
  (List.range attrs.len).foldl (extractStep keys attrs) (ah, false, stored)

/-- WithAttrs (handler.go lines 258-274) over the heaps: extract headers out of the
callers attribute slice, append the rendered remaining attributes to a copy of the
context slice header, and clip the result. -/
def withAttrsH (hs : Heaps) (h : HHandler) (attrs : GoSlice) : Heaps × HHandler :=
  let ex := extractHeadersH h.headerKeys hs.ah h.hdrs attrs
  let rendered := (ex.1.read attrs).map (fun a => (renderA h.rw h.groups a).1)
  let fin := rendered.foldl (fun acc tok => sliceAppend acc.1 acc.2 tok) (hs.ch, h.ctx)
  (⟨fin.1, ex.1⟩, { h with ctx := fin.2.clip, hdrs := ex.2.2 })

/-- WithGroup (handler.go lines 277-291) over the heaps: no heap operation at all,
the context and header slices are shared with the parent. -/
def withGroupHs (hs : Heaps) (h : HHandler) (name : String) : Heaps × HHandler :=
  (hs, { h with groups := h.groups ++ [name.trim] })

/-- State of the attribute walk of Handle with the header slots as heap slices. -/
structure HLoopSt where
  ah : GHeap GAttr
  localHeaders : Bool
  hdrs : GoSlice
  middle : List Char
  trailer : List Char

/-- One step of the attribute walk of Handle (handler.go lines 151-218) over the
attribute heap: the first header-key match appends the inherited slots to a fresh
empty scratch slice (line 156) before any slot is written, so later writes land in
the copy; non-matching attributes are rendered with the same speculative
write-inspect-relocate protocol as the functional model. -/
def hAttrStep (h : HHandler) (st : HLoopSt) (a : GAttr) : HLoopSt :=
  match h.headerKeys.findIdx? (fun s => s = a.1) with
  | some idx =>
    let tmp :=
      if st.localHeaders then (st.ah, st.hdrs)
      else sliceAppend st.ah { id := 0, off := 0, len := 0, cap := 0 } (st.ah.read st.hdrs)
    let ah2 := tmp.1.writeAt tmp.2.id (tmp.2.off + idx) [a]
    { st with ah := ah2, localHeaders := true, hdrs := tmp.2 }
  | none =>
    let r := renderA h.rw h.groups a
    let grown := st.middle ++ r.1
    let lastAttr := grown.drop st.middle.length
    if '\n' ∈ lastAttr then
      { st with middle := grown.take st.middle.length, trailer := st.trailer ++ lastAttr }
    else
      { st with middle := grown }

/-- The attribute walk of Handle over the attribute heap. -/
def hAttrLoop (h : HHandler) (ah : GHeap GAttr) (stored : GoSlice) (m0 : List Char)
    (as : List GAttr) : HLoopSt :=
  as.foldl (hAttrStep h)
    { ah := ah, localHeaders := false, hdrs := stored, middle := m0, trailer := [] }

/-! ### The duration formatter -/

/-- The fraction part of the reference algorithm: format the prec least significant
digits of v as a decimal fraction omitting trailing zeros, returning the fraction
text (with its leading point when non-empty) and v stripped of those digits. -/
def fmtFracAux : Nat → Nat → String → Bool → String × Nat
  | 0, v, acc, prnt => (if prnt then "." ++ acc else "", v)
  | p + 1, v, acc, prnt =>
    let digit := v % 10
    let prnt2 := prnt || decide (digit ≠ 0)
    let acc2 := if prnt2 then String.singleton (digCh digit) ++ acc else acc
    fmtFracAux p (v / 10) acc2 prnt2

/-- The fraction part of the reference algorithm. -/
def fmtFrac (v : Nat) (prec : Nat) : String × Nat := fmtFracAux prec v "" false

/-- The reference compact rendering of the host ecosystem for a signed nanosecond
span: sub-second spans pick the most precise exact unit among ns, µs and ms, the
zero span is 0s, longer spans show seconds with a trimmed nine digit fraction and
only the needed minute and hour units, and negative spans prefix a minus sign. -/
def durationString (d : Int) : String :=
  let u := d.natAbs
  let core :=
    if u < 1000000000 then
      if u = 0 then "0s"
      else if u < 1000 then natStr u ++ "ns"
      else if u < 1000000 then
        let f := fmtFrac u 3
        natStr f.2 ++ f.1 ++ "µs"
      else
        let f := fmtFrac u 6
        natStr f.2 ++ f.1 ++ "ms"
    else
      let f := fmtFrac u 9
      let secs := natStr (f.2 % 60) ++ f.1 ++ "s"
      let u2 := f.2 / 60
      if u2 = 0 then secs
      else
        let mins := natStr (u2 % 60) ++ "m" ++ secs
        let u3 := u2 / 60
        if u3 = 0 then mins else natStr u3 ++ "h" ++ mins
  if d < 0 then "-" ++ core else core

/-- Modelled from the spec: appendDuration is not under src; the spec requires
exact agreement with the reference compact format for spans under 24 hours, and
for 24 hours or more a prepended day count in the NdNhNmNs form, negative spans
prefixed with a minus sign. -/
def appendDuration (d : Int) : String :=
  let u := d.natAbs
  if u < 86400000000000 then durationString d
  else
    let days := u / 86400000000000
    let rem := u % 86400000000000
    let f := fmtFrac rem 9
    let core := natStr days ++ "d" ++ natStr (f.2 / 3600) ++ "h" ++
      natStr (f.2 / 60 % 60) ++ "m" ++ natStr (f.2 % 60) ++ f.1 ++ "s"
    if d < 0 then "-" ++ core else core

/-- The walked tokens that contain a line break (relocated to trailer). -/
def nlToks (toks : List (List Char)) : List (List Char) :=
  toks.filter (fun t => decide ('\n' ∈ t))

/-- The walked tokens that contain no line break (kept in middle). -/
def clToks (toks : List (List Char)) : List (List Char) :=
  toks.filter (fun t => decide ('\n' ∉ t))

/-- The attribute list with every entry whose key matches a configured header key
replaced by the zero attribute, everything else unchanged (what C9 claims
extractHeaders leaves in the callers slice). -/
def zeroedBy (keys : List String) (as : List GAttr) : List GAttr :=
  as.map (fun a => if (keys.findIdx? (fun s => s = a.1)).isSome then zeroAttr else a)

/-- Well-formedness of a slice over a heap: length within capacity and the
capacity extent inside the backing allocation. -/
def SliceWf (hp : GHeap α) (s : GoSlice) : Prop :=
  s.len ≤ s.cap ∧ s.off + s.cap ≤ (hp.data s.id).length

/-! ### Concrete fixtures used by witnesses and counterexamples -/

/-- A sink that always fails. -/
def failSink : List Char → Option String := fun _ => some "nope"

/-- A sink that always succeeds. -/
def okSink : List Char → Option String := fun _ => none

/-- Default options: no source, no level, no headers, no hook. -/
def optsBasic : FOptions := ⟨false, none, [], 0, none⟩

/-- A plain handler. -/
def hBasic : FHandler := newHandlerF optsBasic

/-- A plain record. -/
def recBasic : GoRecord := { time := 5, level := 0, message := "foobar", pc := 0, attrs := [] }

/-- A handler with a bound attribute whose rendered text contains a line break. -/
def hCtxNl : FHandler := withAttrsF hBasic [("note", AValue.str "a\nb")]

/-- A record with one single-line and one multiline attribute. -/
def recML : GoRecord :=
  { time := 5, level := 0, message := "foobar", pc := 0
    attrs := [("a", AValue.str "x"), ("b", AValue.str "l1\nl2")] }

/-- A record with zero time and zero pc and one plain attribute. -/
def recT0 : GoRecord :=
  { time := 0, level := 0, message := "m", pc := 0, attrs := [("a", AValue.str "x")] }

/-- A byte heap fixture with one allocation holding one character. -/
def chW : GHeap Char := { data := fun i => if i = 0 then ['c'] else [], next := 1 }

/-- An attribute heap fixture with a stored slot allocation and a caller
allocation. -/
def ahW : GHeap GAttr :=
  { data := fun i =>
      if i = 0 then [("h1", AValue.str "v")]
      else if i = 1 then [("h1", AValue.str "w"), ("x", AValue.str "y")] else []
    next := 2 }

/-- The heap pair fixture. -/
def hsW : Heaps := ⟨chW, ahW⟩

/-- A heap handler fixture with one configured header key. -/
def hW : HHandler :=
  { addSource := false, level := 0, headerKeys := ["h1"], headerWidth := 0, rw := none,
    groups := [], ctx := ⟨0, 0, 1, 1⟩, hdrs := ⟨0, 0, 1, 1⟩ }

/-- The callers attribute slice fixture: allocation 1, two attributes. -/
def attrsW : GoSlice := ⟨1, 0, 2, 2⟩

/-- A record attribute list fixture with one header match and one plain entry. -/
def asW : List GAttr := [("h1", AValue.str "new"), ("x", AValue.str "y")]

/-! ### Theorems -/

/-- The textual form of a plain string value. -/
theorem valChars_str (s : String) : valChars (AValue.str s) = s.data := rfl

/-- The second component of leafRender: no invocation point for the zero
attribute, one for everything else. -/
theorem leafRender_snd (hk : Hook) (pfx : List String) (k : String) (v : AValue)
    (isSrc : Bool) :
    (leafRender hk pfx k v isSrc).2
      = if isZero (k, v) then []
        else [if isSrc then HookCall.srcF else HookCall.leaf pfx k] := by
  by_cases hz : isZero (k, v) = true
  · simp [leafRender, hz]
  · by_cases hiv : isEmptyVal (applyHook hk pfx (k, v)).2 = true <;>
      cases isSrc <;> simp [leafRender, hz, hiv]

/-- A call-site value is never the zero attribute. -/
theorem isZero_src (k : String) (pc : Nat) : isZero (k, AValue.srcv pc) = false := by
  simp [isZero, isEmptyVal]

/-- The second components of the leaf fold are the flattened per-leaf lists. -/
theorem foldr_comb_snd {α : Type} (f : α → List Char × List HookCall) (ls : List α) :
    ((ls.map f).foldr (fun r acc => (r.1 ++ acc.1, r.2 ++ acc.2)) ([], [])).2
      = (ls.map (fun t => (f t).2)).flatten := by
  induction ls with
  | nil => rfl
  | cons x xs ih => simp [List.foldr_cons, ih]

/-- The first components of the leaf fold are the flattened per-leaf lists. -/
theorem foldr_comb_fst {α : Type} (f : α → List Char × List HookCall) (ls : List α) :
    ((ls.map f).foldr (fun r acc => (r.1 ++ acc.1, r.2 ++ acc.2)) ([], [])).1
      = (ls.map (fun t => (f t).1)).flatten := by
  induction ls with
  | nil => rfl
  | cons x xs ih => simp [List.foldr_cons, ih]

/-- The hook invocation points of writeAttr are exactly the resolved leaves. -/
theorem renderA_calls (hk : Hook) (pfx : List String) (a : GAttr) :
    (renderA hk pfx a).2 = leavesCalls pfx a := by
  unfold renderA leavesCalls
  rw [foldr_comb_snd]
  congr 1
  apply List.map_congr_left
  intro t _
  have hpair : (t.2.1, t.2.2) = t.2 := rfl
  by_cases hsrc : isSrcVal t.2.2 = true
  · have hz0 : isZero t.2 = false := by
      cases ht : t.2.2 with
      | srcv pc =>
        rw [show isZero t.2 = (decide (t.2.1 = "") && isEmptyVal t.2.2) from rfl, ht]
        simp [isEmptyVal]
      | str s => rw [ht] at hsrc; simp [isSrcVal] at hsrc
      | group g => rw [ht] at hsrc; simp [isSrcVal] at hsrc
    simp [hsrc, leafRender_snd, leafCall, hpair, hz0]
  · simp only [Bool.not_eq_true] at hsrc
    simp [hsrc, leafRender_snd, leafCall, hpair]

/-- One step of the walk unfolds the fold. -/
theorem attrLoop_cons (h : FHandler) (st : LoopSt) (a : GAttr) (rest : List GAttr) :
    attrLoop h st (a :: rest) = attrLoop h (attrStep h st a) rest := rfl

/-- The walk characterised: middle gains exactly the line-break-free tokens in
order, trailer gains exactly the relocated tokens in order, the calls are the
resolved leaf invocation points of the non-header attributes, and the slots are
the matches applied by index. -/
theorem attrLoop_spec (h : FHandler) (as : List GAttr) : ∀ st : LoopSt,
    (attrLoop h st as).middle
        = st.middle ++ (clToks (walkToks h.headerKeys h.rw h.groups as)).flatten ∧
    (attrLoop h st as).trailer
        = st.trailer ++ (nlToks (walkToks h.headerKeys h.rw h.groups as)).flatten ∧
    (attrLoop h st as).calls = st.calls ++ walkCalls h.headerKeys h.groups as ∧
    (attrLoop h st as).headers = applyMatches h.headerKeys st.headers as := by
  induction as with
  | nil =>
    intro st
    simp [attrLoop, walkToks, nlToks, clToks, walkCalls, applyMatches]
  | cons a rest ih =>
    intro st
    rw [attrLoop_cons]
    cases hidx : h.headerKeys.findIdx? (fun s => s = a.1) with
    | some idx =>
      have hstep : attrStep h st a =
          { st with localHeaders := true, headers := st.headers.set idx a } := by
        unfold attrStep; simp only [hidx]
      rw [hstep]
      obtain ⟨ihm, iht, ihc, ihh⟩ :=
        ih { st with localHeaders := true, headers := st.headers.set idx a }
      refine ⟨?_, ?_, ?_, ?_⟩
      · rw [ihm]; simp [walkToks, hidx]
      · rw [iht]; simp [walkToks, hidx]
      · rw [ihc]; simp [walkCalls, hidx]
      · rw [ihh]; simp [applyMatches, hidx]
    | none =>
      have hstep : attrStep h st a =
          (if '\n' ∈ (renderA h.rw h.groups a).1 then
             { st with trailer := st.trailer ++ (renderA h.rw h.groups a).1,
                       calls := st.calls ++ (renderA h.rw h.groups a).2 }
           else
             { st with middle := st.middle ++ (renderA h.rw h.groups a).1,
                       calls := st.calls ++ (renderA h.rw h.groups a).2 }) := by
        unfold attrStep
        simp only [hidx, List.drop_left, List.take_left]
      rw [hstep]
      by_cases hnl : '\n' ∈ (renderA h.rw h.groups a).1
      · rw [if_pos hnl]
        obtain ⟨ihm, iht, ihc, ihh⟩ :=
          ih { st with trailer := st.trailer ++ (renderA h.rw h.groups a).1,
                       calls := st.calls ++ (renderA h.rw h.groups a).2 }
        refine ⟨?_, ?_, ?_, ?_⟩
        · rw [ihm]; simp [walkToks, hidx, clToks, hnl]
        · rw [iht]; simp [walkToks, hidx, nlToks, hnl]
        · rw [ihc]; simp [walkCalls, hidx, renderA_calls]
        · rw [ihh]; simp [applyMatches, hidx]
      · rw [if_neg hnl]
        obtain ⟨ihm, iht, ihc, ihh⟩ :=
          ih { st with middle := st.middle ++ (renderA h.rw h.groups a).1,
                       calls := st.calls ++ (renderA h.rw h.groups a).2 }
        refine ⟨?_, ?_, ?_, ?_⟩
        · rw [ihm]; simp [walkToks, hidx, clToks, hnl]
        · rw [iht]; simp [walkToks, hidx, nlToks, hnl]
        · rw [ihc]; simp [walkCalls, hidx, renderA_calls]
        · rw [ihh]; simp [applyMatches, hidx]

/-- No digit character is a line break. -/
theorem digCh_ne_nl (d : Nat) : digCh d ≠ '\n' := by
  unfold digCh; split <;> decide

/-- Decimal digit runs contain no line break. -/
theorem natCharsAux_noNl (fuel : Nat) : ∀ n, '\n' ∉ natCharsAux fuel n := by
  induction fuel with
  | zero => intro n; simp [natCharsAux]
  | succ f ih =>
    intro n
    unfold natCharsAux
    split
    · intro hmem
      simp only [List.mem_singleton] at hmem
      exact digCh_ne_nl n hmem.symm
    · intro hmem
      rcases List.mem_append.mp hmem with hm | hm
      · exact ih _ hm
      · simp only [List.mem_singleton] at hm
        exact digCh_ne_nl _ hm.symm

/-- Decimal renderings contain no line break. -/
theorem natChars_noNl (n : Nat) : '\n' ∉ natChars n := natCharsAux_noNl _ _

/-- The characters of a natStr are its digits. -/
theorem natStr_data (n : Nat) : (natStr n).data = natChars n := rfl

/-- Membership in the characters of an appended string. -/
theorem mem_data_append {c : Char} {s t : String} :
    c ∈ (s ++ t).data ↔ c ∈ s.data ∨ c ∈ t.data := by
  rw [String.data_append]; exact List.mem_append

/-- The signed suffix contains no line break. -/
theorem intSuffix_noNl (d : Int) : '\n' ∉ (intSuffix d).data := by
  unfold intSuffix
  split
  · simp
  · split <;>
      (intro h; rcases mem_data_append.mp h with hm | hm) <;>
      first
        | (revert hm; decide)
        | (rw [natStr_data] at hm; exact natChars_noNl _ hm)

/-- A band code followed by a suffix contains no line break when the code has
none. -/
theorem abbrev_suffix_noNl (s : String) (d : Int) (hs : '\n' ∉ s.data) :
    '\n' ∉ (s ++ intSuffix d).data := by
  intro h
  rcases mem_data_append.mp h with hm | hm
  · exact hs hm
  · exact intSuffix_noNl d hm

/-- Level abbreviations contain no line break. -/
theorem levelAbbrev_noNl (l : Int) : '\n' ∉ (levelAbbrev l).data := by
  unfold levelAbbrev
  split
  · exact abbrev_suffix_noNl _ _ (by decide)
  · split
    · exact abbrev_suffix_noNl _ _ (by decide)
    · split
      · exact abbrev_suffix_noNl _ _ (by decide)
      · exact abbrev_suffix_noNl _ _ (by decide)

/-- An append whose first part has characters is not the empty string. -/
theorem append_ne_empty (s t : String) (hs : s.data ≠ []) : s ++ t ≠ "" := by
  intro h
  apply hs
  have h2 := congrArg String.data h
  rw [String.data_append] at h2
  exact (List.append_eq_nil.mp h2).1

/-- Level abbreviations are never empty. -/
theorem levelAbbrev_ne_empty (l : Int) : levelAbbrev l ≠ "" := by
  unfold levelAbbrev
  split
  · exact append_ne_empty _ _ (by decide)
  · split
    · exact append_ne_empty _ _ (by decide)
    · split
      · exact append_ne_empty _ _ (by decide)
      · exact append_ne_empty _ _ (by decide)

/-- With no hook, the timestamp field contains no line break. -/
theorem writeTimestamp_none_noNl (t : Nat) : '\n' ∉ (writeTimestamp none t).1 := by
  unfold writeTimestamp
  split
  · simp
  · simp only [applyHook]
    split
    · simp
    · intro h
      rcases List.mem_append.mp h with hm | hm
      · rw [valChars_str, natStr_data] at hm
        exact natChars_noNl _ hm
      · revert hm; decide

/-- With no hook, the level field contains no line break. -/
theorem writeLevel_none_noNl (l : Int) : '\n' ∉ (writeLevel none l).1 := by
  unfold writeLevel
  simp only [applyHook]
  split
  · simp
  · intro h
    rcases List.mem_append.mp h with hm | hm
    · rw [valChars_str] at hm
      exact levelAbbrev_noNl l hm
    · revert hm; decide

/-- With no hook, the message field contains no line break when the message has
none. -/
theorem writeMessage_none_noNl (m : String) (hm : '\n' ∉ m.data) :
    '\n' ∉ (writeMessage none m).1 := by
  unfold writeMessage
  simp only [applyHook]
  split
  · simp
  · rw [valChars_str]
    exact hm

/-- With no configured header keys, the walk leaves the slots alone. -/
theorem applyMatches_nil_keys (as : List GAttr) : ∀ slots : List GAttr,
    applyMatches [] slots as = slots := by
  induction as with
  | nil => intro slots; rfl
  | cons a rest ih => intro slots; exact ih slots

/-- Nothing in the kept tokens contains a line break. -/
theorem noNl_flatten_clToks (toks : List (List Char)) : '\n' ∉ (clToks toks).flatten := by
  intro h
  rcases List.mem_flatten.mp h with ⟨l, hl, hcl⟩
  rcases List.mem_filter.mp hl with ⟨-, hdec⟩
  exact (of_decide_eq_true hdec) hcl

/-- The middle buffer of the result is the walk middle. -/
theorem handleModel_middleB (h : FHandler) (out : List Char → Option String)
    (rec : GoRecord) : (handleModel h out rec).middleB = (loopResult h rec).middle := rfl

/-- The trailer buffer of the result is the walk trailer. -/
theorem handleModel_trailerB (h : FHandler) (out : List Char → Option String)
    (rec : GoRecord) : (handleModel h out rec).trailerB = (loopResult h rec).trailer := rfl

/-- The header buffer of the result. -/
theorem handleModel_headerB (h : FHandler) (out : List Char → Option String)
    (rec : GoRecord) :
    (handleModel h out rec).headerB
      = (writeTimestamp h.rw rec.time).1 ++ headersOut (loopResult h rec).headers := rfl

/-- The hook invocation points of the result. -/
theorem handleModel_calls (h : FHandler) (out : List Char → Option String)
    (rec : GoRecord) :
    (handleModel h out rec).calls
      = (writeTimestamp h.rw rec.time).2 ++ (writeLevel h.rw rec.level).2 ++
        (writeMessage h.rw rec.message).2 ++ (loopResult h rec).calls := rfl

/-- The walk result unfolded. -/
theorem loopResult_eq (h : FHandler) (rec : GoRecord) :
    loopResult h rec = attrLoop h (initSt h rec) (walkedAttrs h rec) := rfl

/-- C1 (amended): in every Handle call, each walked record attribute whose
rendered token contains a line break is moved whole from middle to trailer —
relative order among relocated tokens preserved and the middle write position
rolled back — while tokens without line breaks extend middle in order; and the
primary line (header plus middle) contains no embedded line break provided the
parts written before the walk contain none: no rewrite hook, no header slots, a
bound context and a message free of line breaks. The unconditional form of the
claim fails for a bound context holding a line break (see the counterexample). -/
theorem C1_relocation_amended :
    ∀ (h : FHandler) (out : List Char → Option String) (rec : GoRecord),
      ((handleModel h out rec).middleB
          = (initSt h rec).middle
            ++ (clToks (walkToks h.headerKeys h.rw h.groups (walkedAttrs h rec))).flatten ∧
       (handleModel h out rec).trailerB
          = (nlToks (walkToks h.headerKeys h.rw h.groups (walkedAttrs h rec))).flatten) ∧
      (h.rw = none → h.headerKeys = [] → h.headers = [] →
        '\n' ∉ h.context → '\n' ∉ rec.message.data →
        '\n' ∉ (handleModel h out rec).headerB ∧ '\n' ∉ (handleModel h out rec).middleB) := by
  intro h out rec
  obtain ⟨hm, ht, -, hh⟩ := attrLoop_spec h (walkedAttrs h rec) (initSt h rec)
  have hmid : (handleModel h out rec).middleB
      = (initSt h rec).middle
        ++ (clToks (walkToks h.headerKeys h.rw h.groups (walkedAttrs h rec))).flatten := by
    rw [handleModel_middleB, loopResult_eq, hm]
  have htr : (handleModel h out rec).trailerB
      = (nlToks (walkToks h.headerKeys h.rw h.groups (walkedAttrs h rec))).flatten := by
    rw [handleModel_trailerB, loopResult_eq, ht]
    rfl
  refine ⟨⟨hmid, htr⟩, ?_⟩
  intro hrw hkeys hhdr hctx hmsg
  constructor
  · rw [handleModel_headerB]
    intro hmem
    rcases List.mem_append.mp hmem with hm1 | hm1
    · rw [hrw] at hm1
      exact writeTimestamp_none_noNl rec.time hm1
    · rw [loopResult_eq, hh, hkeys, applyMatches_nil_keys] at hm1
      have hin : (initSt h rec).headers = h.headers := rfl
      rw [hin, hhdr] at hm1
      simp [headersOut] at hm1
  · rw [hmid]
    intro hmem
    rcases List.mem_append.mp hmem with hm1 | hm1
    · have : (initSt h rec).middle
          = (writeLevel h.rw rec.level).1 ++ (writeMessage h.rw rec.message).1 ++ h.context := rfl
      rw [this] at hm1
      rcases List.mem_append.mp hm1 with hm2 | hm2
      · rcases List.mem_append.mp hm2 with hm3 | hm3
        · rw [hrw] at hm3
          exact writeLevel_none_noNl rec.level hm3
        · rw [hrw] at hm3
          exact writeMessage_none_noNl rec.message hmsg hm3
      · exact hctx hm2
    · exact noNl_flatten_clToks _ hm1

/-- C1 counterexample: a handler whose bound context holds a multiline bound
attribute yields a middle buffer — part of the primary line — with an embedded
line break, and nothing is relocated, so the claim fails for such bound context. -/
theorem C1_cex_bound_context :
    '\n' ∈ (handleModel hCtxNl okSink recBasic).middleB ∧
    (handleModel hCtxNl okSink recBasic).trailerB = [] := by
  constructor
  · decide
  · rfl

/-- C1 witness: the amended theorem applied at a concrete handler and a record
with one plain and one multiline attribute. -/
theorem C1_witness :
    ((handleModel hBasic okSink recML).middleB
        = (initSt hBasic recML).middle
          ++ (clToks (walkToks hBasic.headerKeys hBasic.rw hBasic.groups
              (walkedAttrs hBasic recML))).flatten ∧
     (handleModel hBasic okSink recML).trailerB
        = (nlToks (walkToks hBasic.headerKeys hBasic.rw hBasic.groups
            (walkedAttrs hBasic recML))).flatten) ∧
    ('\n' ∉ (handleModel hBasic okSink recML).headerB ∧
     '\n' ∉ (handleModel hBasic okSink recML).middleB) :=
  ⟨(C1_relocation_amended hBasic okSink recML).1,
   (C1_relocation_amended hBasic okSink recML).2 rfl rfl rfl (by decide) (by decide)⟩

/-- The timestamp invocation points: none for zero time. -/
theorem writeTimestamp_snd (hk : Hook) (t : Nat) :
    (writeTimestamp hk t).2 = if t = 0 then [] else [HookCall.ts] := by
  by_cases h0 : t = 0
  · simp [writeTimestamp, h0]
  · unfold writeTimestamp
    rw [if_neg h0, if_neg h0]
    by_cases hiv : isEmptyVal (applyHook hk [] ("time", AValue.str (natStr t))).2 = true <;>
      simp [hiv]

/-- The level field records exactly one invocation point. -/
theorem writeLevel_snd (hk : Hook) (l : Int) :
    (writeLevel hk l).2 = [HookCall.lvl] := by
  unfold writeLevel
  by_cases hiv : isEmptyVal (applyHook hk [] ("level", AValue.str (levelAbbrev l))).2 = true <;>
    simp [hiv]

/-- The message field records exactly one invocation point. -/
theorem writeMessage_snd (hk : Hook) (m : String) :
    (writeMessage hk m).2 = [HookCall.msg] := by
  unfold writeMessage
  by_cases hiv : isEmptyVal (applyHook hk [] ("msg", AValue.str m)).2 = true <;>
    simp [hiv]

/-- Every walk invocation point is a source marker or a leaf call. -/
theorem walkCalls_mem (keys : List String) (pfx : List String) (as : List GAttr)
    (c : HookCall) (hc : c ∈ walkCalls keys pfx as) :
    c = HookCall.srcF ∨ ∃ p k, c = HookCall.leaf p k := by
  unfold walkCalls at hc
  rcases List.mem_flatten.mp hc with ⟨l, hl, hcl⟩
  rcases List.mem_map.mp hl with ⟨a, ha, hleq⟩
  subst hleq
  cases hidx : keys.findIdx? (fun s => s = a.1) with
  | some idx => rw [hidx] at hcl; simp at hcl
  | none =>
    rw [hidx] at hcl
    unfold leavesCalls at hcl
    rcases List.mem_flatten.mp hcl with ⟨l2, hl2, hcl2⟩
    rcases List.mem_map.mp hl2 with ⟨t, ht, hleq2⟩
    subst hleq2
    unfold leafCall at hcl2
    by_cases hz : isZero t.2 = true
    · rw [if_pos hz] at hcl2; simp at hcl2
    · rw [if_neg hz] at hcl2
      by_cases hs : isSrcVal t.2.2 = true
      · rw [if_pos hs] at hcl2
        simp only [List.mem_singleton] at hcl2
        exact Or.inl hcl2
      · rw [if_neg hs] at hcl2
        simp only [List.mem_singleton] at hcl2
        exact Or.inr ⟨_, _, hcl2⟩

/-- Records without call-site leaves produce no source invocation point. -/
theorem srcF_notin_walkCalls (keys : List String) (pfx : List String)
    (as : List GAttr) (hn : noSrcAttrs as = true) :
    HookCall.srcF ∉ walkCalls keys pfx as := by
  intro hc
  unfold walkCalls at hc
  rcases List.mem_flatten.mp hc with ⟨l, hl, hcl⟩
  rcases List.mem_map.mp hl with ⟨a, ha, hleq⟩
  subst hleq
  cases hidx : keys.findIdx? (fun s => s = a.1) with
  | some idx => rw [hidx] at hcl; simp at hcl
  | none =>
    rw [hidx] at hcl
    unfold leavesCalls at hcl
    rcases List.mem_flatten.mp hcl with ⟨l2, hl2, hcl2⟩
    rcases List.mem_map.mp hl2 with ⟨t, ht, hleq2⟩
    subst hleq2
    have hna : noSrcA a = true := List.all_eq_true.mp hn a ha
    unfold noSrcA at hna
    have hsrc : isSrcVal t.2.2 = false := by
      have := List.all_eq_true.mp hna t ht
      simpa using this
    unfold leafCall at hcl2
    by_cases hz : isZero t.2 = true
    · rw [if_pos hz] at hcl2; simp at hcl2
    · rw [if_neg hz, if_neg (by simp [hsrc])] at hcl2
      simp at hcl2

/-- C6: the rewrite hook is never invoked for the timestamp field of a record
with zero time, never for the source field when AddSource is off or the record
carries no call-site pc (and the record has no call-site leaf of its own), and
the remaining invocation points are exactly the builtins plus the resolved
leaves of the walked attributes — never a group attribute itself. -/
theorem C6_hook_not_invoked_when_absent :
    ∀ (h : FHandler) (out : List Char → Option String) (rec : GoRecord),
      (rec.time = 0 → HookCall.ts ∉ (handleModel h out rec).calls) ∧
      ((h.addSource = false ∨ rec.pc = 0) → noSrcAttrs rec.attrs = true →
        HookCall.srcF ∉ (handleModel h out rec).calls) ∧
      ((handleModel h out rec).calls
          = (writeTimestamp h.rw rec.time).2 ++ HookCall.lvl :: HookCall.msg ::
            walkCalls h.headerKeys h.groups (walkedAttrs h rec)) := by
  intro h out rec
  obtain ⟨-, -, hc, -⟩ := attrLoop_spec h (walkedAttrs h rec) (initSt h rec)
  have hcalls : (handleModel h out rec).calls
      = (writeTimestamp h.rw rec.time).2 ++ HookCall.lvl :: HookCall.msg ::
        walkCalls h.headerKeys h.groups (walkedAttrs h rec) := by
    rw [handleModel_calls, writeLevel_snd, writeMessage_snd, loopResult_eq, hc]
    simp [initSt]
  refine ⟨?_, ?_, hcalls⟩
  · intro ht0 hmem
    rw [hcalls, writeTimestamp_snd, if_pos ht0] at hmem
    simp only [List.nil_append, List.mem_cons] at hmem
    rcases hmem with h1 | h1 | h1
    · simp at h1
    · simp at h1
    · rcases walkCalls_mem _ _ _ _ h1 with h2 | ⟨p, k, h2⟩ <;> simp at h2
  · intro habs hn hmem
    have hwalked : walkedAttrs h rec = rec.attrs := by
      rcases habs with hf | hp0
      · simp [walkedAttrs, hf]
      · simp [walkedAttrs, hp0]
    rw [hcalls, hwalked, writeTimestamp_snd] at hmem
    have hpre : HookCall.srcF ∉ (if rec.time = 0 then ([] : List HookCall) else [HookCall.ts]) := by
      split <;> simp
    rcases List.mem_append.mp hmem with h1 | h1
    · exact hpre h1
    · simp only [List.mem_cons] at h1
      rcases h1 with h2 | h2 | h2
      · simp at h2
      · simp at h2
      · exact srcF_notin_walkCalls _ _ _ hn h2

/-- C6 witness: the theorem applied at a handler without source and a record with
zero time and zero pc. -/
theorem C6_witness :
    HookCall.ts ∉ (handleModel hBasic okSink recT0).calls ∧
    HookCall.srcF ∉ (handleModel hBasic okSink recT0).calls ∧
    (handleModel hBasic okSink recT0).calls
      = (writeTimestamp hBasic.rw recT0.time).2 ++ HookCall.lvl :: HookCall.msg ::
        walkCalls hBasic.headerKeys hBasic.groups (walkedAttrs hBasic recT0) :=
  ⟨(C6_hook_not_invoked_when_absent hBasic okSink recT0).1 rfl,
   (C6_hook_not_invoked_when_absent hBasic okSink recT0).2.1 (Or.inl rfl) (by decide),
   (C6_hook_not_invoked_when_absent hBasic okSink recT0).2.2⟩

/-- C2: the duration formatter agrees exactly with the reference compact rendering
for spans under 24 hours, renders the listed spans as stated (2h3m4s5ms6µs7ns, the
zero span, and -2h plus 7ns), and uses a prepended day count for spans of 24 hours
or more, so 49h1s renders as 2d1h0m1s. -/
theorem C2_duration_format :
    (∀ d : Int, d.natAbs < 86400000000000 → appendDuration d = durationString d) ∧
    appendDuration 7384005006007 = "2h3m4.005006007s" ∧
    appendDuration 0 = "0s" ∧
    appendDuration (-7199999999993) = "-1h59m59.999999993s" ∧
    appendDuration 176401000000000 = "2d1h0m1s" := by
  refine ⟨fun d hd => ?_, by rfl, by rfl, by rfl, by rfl⟩
  unfold appendDuration
  simp [hd]

/-- C2 witness: the under-24h agreement applied at a concrete span. -/
theorem C2_witness : appendDuration 7 = durationString 7 :=
  C2_duration_format.1 7 (by decide)

/-- C7: enabled is true iff the level is at least the configured threshold, and a
handler built with no Level option defaults the threshold to the info level 0. -/
theorem C7_enabled_iff_threshold :
    (∀ (h : FHandler) (l : Int), enabledF h l = true ↔ h.level ≤ l) ∧
    (∀ opts : FOptions, opts.level = none → (newHandlerF opts).level = 0) := by
  refine ⟨fun h l => ?_, fun opts hn => ?_⟩
  · simp [enabledF]
  · simp [newHandlerF, hn]

/-- C7 witness: the default-options handler has threshold 0 and enables level 3
iff 0 is at most 3. -/
theorem C7_witness :
    (newHandlerF optsBasic).level = 0 ∧
    (enabledF (newHandlerF optsBasic) 3 = true ↔ (newHandlerF optsBasic).level ≤ 3) :=
  ⟨C7_enabled_iff_threshold.2 optsBasic rfl,
   C7_enabled_iff_threshold.1 (newHandlerF optsBasic) 3⟩

/-- C4: Handle performs exactly one write per invocation — of the header, middle
and trailer buffers concatenated — and returns the sink result unchanged: the
error value on failure and success otherwise; no formatting step produces a
failure result. -/
theorem C4_single_write_propagates :
    ∀ (h : FHandler) (out : List Char → Option String) (rec : GoRecord),
      (handleModel h out rec).writes = [assembled h rec] ∧
      (handleModel h out rec).res = out (assembled h rec) :=
  fun _ _ _ => ⟨rfl, rfl⟩

/-- C5 counterexample: on a failing sink write Handle returns the error but the
encoder is not released back to the pool. -/
theorem C5_cex_not_freed_on_error :
    (handleModel hBasic failSink recBasic).res = some "nope" ∧
    (handleModel hBasic failSink recBasic).freed = false :=
  ⟨rfl, rfl⟩

/-- C5 amended: the per-record buffers are released back to the pool exactly when
the single sink write succeeds; on a write error Handle returns early (line 250)
without reaching the release on line 253. -/
theorem C5_amended_freed_iff_success :
    ∀ (h : FHandler) (out : List Char → Option String) (rec : GoRecord),
      (handleModel h out rec).freed = (out (assembled h rec)).isNone :=
  fun _ _ _ => rfl

/-- A successful findIdx? is within bounds. -/
theorem findIdx?_lt_length {p : String → Bool} : ∀ (l : List String) (i : Nat),
    l.findIdx? p = some i → i < l.length := by
  intro l
  induction l with
  | nil => intro i h; simp [List.findIdx?] at h
  | cons x xs ih =>
    intro i h
    rw [List.findIdx?_cons] at h
    by_cases hp : p x
    · simp [hp] at h
      simp [← h]
    · simp [hp] at h
      rcases h with ⟨j, hj, rfl⟩
      have := ih j hj
      simp
      omega

/-- Setting past a prefix sets within the suffix. -/
theorem set_append_right {α : Type} (l1 l2 : List α) (k : Nat) (x : α) :
    (l1 ++ l2).set (l1.length + k) x = l1 ++ l2.set k x := by
  induction l1 with
  | nil => simp
  | cons a as ih => simp [List.set, ih, Nat.succ_add]

/-- Overwriting never shortens a backing list. -/
theorem overwrite_length_ge {α : Type} (l : List α) (pos : Nat) (bs : List α) :
    l.length ≤ (overwrite l pos bs).length := by
  simp [overwrite]
  omega

/-- Entries before the overwritten region are unchanged. -/
theorem overwrite_getElem?_lt {α : Type} (l : List α) (pos : Nat) (bs : List α) (j : Nat)
    (hj : j < pos) (hjl : j < l.length) :
    (overwrite l pos bs)[j]? = l[j]? := by
  unfold overwrite
  rw [List.getElem?_append_left (by rw [List.length_append, List.length_take]; omega)]
  rw [List.getElem?_append_left (by rw [List.length_take]; omega)]
  exact List.getElem?_take_of_lt hj

/-- Entries after the overwritten region are unchanged. -/
theorem overwrite_getElem?_ge {α : Type} (l : List α) (pos : Nat) (bs : List α) (j : Nat)
    (hj : pos + bs.length ≤ j) (hpl : pos ≤ l.length) :
    (overwrite l pos bs)[j]? = l[j]? := by
  unfold overwrite
  have h1 : (l.take pos ++ bs).length ≤ j := by
    rw [List.length_append, List.length_take]; omega
  rw [List.getElem?_append_right h1, List.getElem?_drop]
  congr 1
  rw [List.length_append, List.length_take]
  omega

/-- The overwritten cell holds the written value. -/
theorem overwrite_getElem?_at {α : Type} (l : List α) (pos : Nat) (x : α)
    (hp : pos < l.length) :
    (overwrite l pos [x])[pos]? = some x := by
  unfold overwrite
  have h1 : (l.take pos).length = pos := by rw [List.length_take]; omega
  rw [List.getElem?_append_left
        (by rw [List.length_append, List.length_take, List.length_singleton]; omega),
      List.getElem?_append_right (by omega)]
  simp [h1]

/-- Writes to another allocation leave a slice unchanged. -/
theorem read_writeAt_ne {α : Type} (hp : GHeap α) (s : GoSlice) (i pos : Nat)
    (bs : List α) (hne : i ≠ s.id) : (hp.writeAt i pos bs).read s = hp.read s := by
  simp [GHeap.read, GHeap.writeAt, Ne.symm hne]

/-- The written allocation after a write. -/
theorem writeAt_data_self {α : Type} (hp : GHeap α) (i pos : Nat) (bs : List α) :
    (hp.writeAt i pos bs).data i = overwrite (hp.data i) pos bs := by
  simp [GHeap.writeAt]

/-- Other allocations after a write. -/
theorem writeAt_data_other {α : Type} (hp : GHeap α) (i pos : Nat) (bs : List α)
    (j : Nat) (hj : j ≠ i) : (hp.writeAt i pos bs).data j = hp.data j := by
  simp [GHeap.writeAt, hj]

/-- Writes allocate nothing. -/
theorem writeAt_next {α : Type} (hp : GHeap α) (i pos : Nat) (bs : List α) :
    (hp.writeAt i pos bs).next = hp.next := rfl

/-- Reading a slice from equal regions gives equal contents. -/
theorem read_eq_of_pointwise {α : Type} (l l2 : List α) (off len : Nat)
    (hl : off + len ≤ l.length) (hl2 : off + len ≤ l2.length)
    (hpt : ∀ j, j < len → l2[off + j]? = l[off + j]?) :
    (l2.drop off).take len = (l.drop off).take len := by
  apply List.ext_getElem?_iff.mpr
  intro n
  by_cases hn : n < len
  · rw [List.getElem?_take_of_lt hn, List.getElem?_take_of_lt hn,
        List.getElem?_drop, List.getElem?_drop]
    exact hpt n hn
  · have e1 : ((l2.drop off).take len)[n]? = none := by
      apply List.getElem?_eq_none_iff.mpr
      rw [List.length_take, List.length_drop]
      omega
    have e2 : ((l.drop off).take len)[n]? = none := by
      apply List.getElem?_eq_none_iff.mpr
      rw [List.length_take, List.length_drop]
      omega
    rw [e1, e2]

/-- Writes at or past the end of a slice leave its contents unchanged. -/
theorem read_writeAt_beyond {α : Type} (hp : GHeap α) (s : GoSlice) (pos : Nat)
    (bs : List α) (hpos : s.off + s.len ≤ pos)
    (hwf : s.off + s.len ≤ (hp.data s.id).length) :
    (hp.writeAt s.id pos bs).read s = hp.read s := by
  unfold GHeap.read
  rw [writeAt_data_self]
  apply read_eq_of_pointwise
  · exact hwf
  · exact le_trans hwf (overwrite_length_ge _ _ _)
  · intro j hj
    exact overwrite_getElem?_lt _ _ _ _ (by omega) (by omega)

/-- A single-cell write inside a slice sets that cell. -/
theorem read_writeAt_set {α : Type} (hp : GHeap α) (s : GoSlice) (k : Nat) (x : α)
    (hk : k < s.len) (hwf : s.off + s.len ≤ (hp.data s.id).length) :
    (hp.writeAt s.id (s.off + k) [x]).read s = (hp.read s).set k x := by
  unfold GHeap.read
  rw [writeAt_data_self]
  apply List.ext_getElem?_iff.mpr
  intro n
  by_cases hn : n < s.len
  · rw [List.getElem?_take_of_lt hn, List.getElem?_drop]
    by_cases hnk : n = k
    · subst hnk
      rw [overwrite_getElem?_at _ _ _ (by omega)]
      have hlen : (((hp.data s.id).drop s.off).take s.len).length = s.len := by
        rw [List.length_take, List.length_drop]; omega
      rw [List.getElem?_set_self']
      rw [List.getElem?_take_of_lt hn, List.getElem?_drop,
          List.getElem?_eq_getElem (by omega)]
      rfl
    · rw [List.getElem?_set_ne (fun hkn => hnk hkn.symm)]
      rw [List.getElem?_take_of_lt hn, List.getElem?_drop]
      by_cases hlt : n < k
      · exact overwrite_getElem?_lt _ _ _ _ (by omega) (by omega)
      · apply overwrite_getElem?_ge
        · rw [List.length_singleton]; omega
        · omega
  · have hov := overwrite_length_ge (hp.data s.id) (s.off + k) [x]
    have e1 : (((overwrite (hp.data s.id) (s.off + k) [x]).drop s.off).take s.len)[n]? = none := by
      apply List.getElem?_eq_none_iff.mpr
      rw [List.length_take, List.length_drop]
      omega
    have e2 : ((((hp.data s.id).drop s.off).take s.len).set k x)[n]? = none := by
      apply List.getElem?_eq_none_iff.mpr
      rw [List.length_set, List.length_take, List.length_drop]
      omega
    rw [e1, e2]

/-- The visible length of a well-formed slice. -/
theorem read_length {α : Type} (hp : GHeap α) (s : GoSlice)
    (h : s.off + s.len ≤ (hp.data s.id).length) : (hp.read s).length = s.len := by
  simp [GHeap.read]
  omega

/-- A fresh allocation leaves existing slices unchanged. -/
theorem read_alloc_ne {α : Type} (hp : GHeap α) (content : List α) (t : GoSlice)
    (hne : t.id ≠ hp.next) :
    GHeap.read ⟨fun j => if j = hp.next then content else hp.data j, hp.next + 1⟩ t
      = hp.read t := by
  simp [GHeap.read, hne]

/-- Folded appends preserve every slice that is disjoint from, or a prefix-extent
of, the growing slice: the contents of the observed slice t, its extent validity
and its identifier bound survive, the growing slice stays well formed inside the
evolving heap, and the result is either the original slice grown in place (same
identifier, offset and capacity) or a freshly allocated one. -/
theorem appendFold_preserve (t : GoSlice) :
    ∀ (toks : List (List Char)) (ch : GHeap Char) (s : GoSlice),
      t.off + t.len ≤ (ch.data t.id).length →
      t.id < ch.next →
      SliceWf ch s →
      s.id < ch.next →
      (s.id = t.id → s.off = t.off ∧ t.len ≤ s.len) →
      ((toks.foldl (fun acc tok => sliceAppend acc.1 acc.2 tok) (ch, s)).1.read t
          = ch.read t ∧
       t.off + t.len ≤
        (((toks.foldl (fun acc tok => sliceAppend acc.1 acc.2 tok) (ch, s)).1).data t.id).length ∧
       t.id < (toks.foldl (fun acc tok => sliceAppend acc.1 acc.2 tok) (ch, s)).1.next ∧
       SliceWf (toks.foldl (fun acc tok => sliceAppend acc.1 acc.2 tok) (ch, s)).1
         (toks.foldl (fun acc tok => sliceAppend acc.1 acc.2 tok) (ch, s)).2 ∧
       (toks.foldl (fun acc tok => sliceAppend acc.1 acc.2 tok) (ch, s)).2.id
          < (toks.foldl (fun acc tok => sliceAppend acc.1 acc.2 tok) (ch, s)).1.next ∧
       ((toks.foldl (fun acc tok => sliceAppend acc.1 acc.2 tok) (ch, s)).2.id = t.id →
          (toks.foldl (fun acc tok => sliceAppend acc.1 acc.2 tok) (ch, s)).2.off = t.off ∧
          t.len ≤ (toks.foldl (fun acc tok => sliceAppend acc.1 acc.2 tok) (ch, s)).2.len) ∧
       ch.next ≤ (toks.foldl (fun acc tok => sliceAppend acc.1 acc.2 tok) (ch, s)).1.next ∧
       ((toks.foldl (fun acc tok => sliceAppend acc.1 acc.2 tok) (ch, s)).2.id = s.id ∧
        (toks.foldl (fun acc tok => sliceAppend acc.1 acc.2 tok) (ch, s)).2.off = s.off ∧
        s.len ≤ (toks.foldl (fun acc tok => sliceAppend acc.1 acc.2 tok) (ch, s)).2.len ∧
        (toks.foldl (fun acc tok => sliceAppend acc.1 acc.2 tok) (ch, s)).2.cap = s.cap ∨
        ch.next ≤ (toks.foldl (fun acc tok => sliceAppend acc.1 acc.2 tok) (ch, s)).2.id)) := by
  intro toks
  induction toks with
  | nil =>
    intro ch s hext hid hwf hsid hsafe
    exact ⟨rfl, hext, hid, hwf, hsid, hsafe, le_refl _, Or.inl ⟨rfl, rfl, le_refl _, rfl⟩⟩
  | cons tok rest ih =>
    intro ch s hext hid hwf hsid hsafe
    rw [List.foldl_cons]
    by_cases hcap : s.len + tok.length ≤ s.cap
    · -- in-place write into spare capacity
      have hstep : sliceAppend ch s tok
          = (ch.writeAt s.id (s.off + s.len) tok, { s with len := s.len + tok.length }) := by
        unfold sliceAppend
        rw [if_pos hcap]
      rw [hstep]
      set ch2 := ch.writeAt s.id (s.off + s.len) tok with hch2
      set s2 : GoSlice := { s with len := s.len + tok.length } with hs2
      have hdata_t : (ch2.data t.id).length ≥ (ch.data t.id).length := by
        by_cases hti : t.id = s.id
        · rw [hch2, hti, writeAt_data_self]
          exact overwrite_length_ge _ _ _
        · rw [hch2, writeAt_data_other _ _ _ _ _ hti]
      have hread_t : ch2.read t = ch.read t := by
        by_cases hti : s.id = t.id
        · have hsf := hsafe hti
          rw [hch2, show s.id = t.id from hti]
          apply read_writeAt_beyond
          · omega
          · exact hext
        · exact read_writeAt_ne _ _ _ _ _ hti
      have hwf2 : SliceWf ch2 s2 := by
        constructor
        · exact hcap
        · have : (ch2.data s.id).length ≥ (ch.data s.id).length := by
            rw [hch2, writeAt_data_self]
            exact overwrite_length_ge _ _ _
          have hb := hwf.2
          simp only [hs2]
          omega
      obtain ⟨r1, r2, r3, r4, r5, r6, r7, r8⟩ :=
        ih ch2 s2 (le_trans hext hdata_t) hid hwf2 hsid
          (fun hq => ⟨(hsafe hq).1, le_trans (hsafe hq).2 (by simp [hs2])⟩)
      refine ⟨by rw [r1, hread_t], r2, r3, r4, r5, r6, r7, ?_⟩
      rcases r8 with ⟨e1, e2, e3, e4⟩ | hfresh
      · exact Or.inl ⟨e1, e2, le_trans (by simp [hs2]) e3, e4⟩
      · exact Or.inr hfresh
    · -- reallocate
      have hstep : sliceAppend ch s tok
          = ({ data := fun j => if j = ch.next
                 then ch.read s ++ tok ++
                   List.replicate (max (s.len + tok.length) (2 * s.cap) - (s.len + tok.length)) default
                 else ch.data j,
               next := ch.next + 1 },
             { id := ch.next, off := 0, len := s.len + tok.length,
               cap := max (s.len + tok.length) (2 * s.cap) }) := by
        unfold sliceAppend
        rw [if_neg hcap]
      rw [hstep]
      set content := ch.read s ++ tok ++
        List.replicate (max (s.len + tok.length) (2 * s.cap) - (s.len + tok.length)) default
        with hcontent
      set ch2 : GHeap Char := { data := fun j => if j = ch.next then content else ch.data j,
                                next := ch.next + 1 } with hch2
      set s2 : GoSlice := { id := ch.next, off := 0, len := s.len + tok.length,
                            cap := max (s.len + tok.length) (2 * s.cap) } with hs2
      have hch2next : ch2.next = ch.next + 1 := rfl
      have hs2id : s2.id = ch.next := rfl
      have hs2off : s2.off = 0 := rfl
      have hs2len : s2.len = s.len + tok.length := rfl
      have hs2cap : s2.cap = max (s.len + tok.length) (2 * s.cap) := rfl
      have hread_t : ch2.read t = ch.read t := read_alloc_ne _ _ _ (by omega)
      have hdata_t : ch2.data t.id = ch.data t.id := by
        simp only [hch2]
        exact if_neg (by omega)
      have hdc : ch2.data s2.id = content := by
        rw [hs2id]
        simp only [hch2]
        simp
      have hclen : content.length = max (s.len + tok.length) (2 * s.cap) := by
        have hrl : (ch.read s).length = s.len :=
          read_length _ _ (le_trans (by have := hwf.1; omega) hwf.2)
        simp only [hcontent, List.length_append, List.length_replicate, hrl]
        omega
      have hwf2 : SliceWf ch2 s2 := by
        constructor
        · rw [hs2len, hs2cap]
          exact le_max_left _ _
        · rw [hdc, hclen, hs2off, hs2cap]
          omega
      obtain ⟨r1, r2, r3, r4, r5, r6, r7, r8⟩ :=
        ih ch2 s2 (by rw [hdata_t]; exact hext) (by rw [hch2next]; omega) hwf2
          (by rw [hs2id, hch2next]; omega)
          (fun hq => absurd hq (by rw [hs2id]; omega))
      refine ⟨by rw [r1, hread_t], r2, r3, r4, r5, r6, ?_, ?_⟩
      · rw [hch2next] at r7
        omega
      · rcases r8 with ⟨e1, -, -, -⟩ | hfresh
        · rw [hs2id] at e1
          exact Or.inr (by omega)
        · rw [hch2next] at hfresh
          exact Or.inr (by omega)

/-- The extractHeaders fold touches only the callers slice and the fresh slot
copy: a slice with a different identifier below the allocation frontier keeps its
contents, the frontier is monotone, and once changed the slot copy has a
different identifier from the observed slice. -/
theorem extract_fold_preserve (keys : List String) (attrs t : GoSlice)
    (hta : t.id ≠ attrs.id) :
    ∀ (idxs : List Nat) (ah : GHeap GAttr) (chg : Bool) (stored : GoSlice),
      t.id < ah.next →
      (chg = true → t.id ≠ stored.id) →
      ((idxs.foldl (extractStep keys attrs) (ah, chg, stored)).1.read t = ah.read t ∧
       t.id < (idxs.foldl (extractStep keys attrs) (ah, chg, stored)).1.next ∧
       ((idxs.foldl (extractStep keys attrs) (ah, chg, stored)).2.1 = true →
         t.id ≠ (idxs.foldl (extractStep keys attrs) (ah, chg, stored)).2.2.id)) := by
  intro idxs
  induction idxs with
  | nil => intro ah chg stored h1 h2; exact ⟨rfl, h1, h2⟩
  | cons i rest ih =>
    intro ah chg stored h1 h2
    rw [List.foldl_cons]
    cases hidx : keys.findIdx? (fun s => s = ((ah.read attrs).getD i zeroAttr).1) with
    | none =>
      have hse : extractStep keys attrs (ah, chg, stored) i = (ah, chg, stored) := by
        simp only [extractStep, hidx]
      rw [hse]
      exact ih ah chg stored h1 h2
    | some idx =>
      by_cases hchg : chg = true
      · have hse : extractStep keys attrs (ah, chg, stored) i
            = ((ah.writeAt stored.id (stored.off + idx)
                  [(ah.read attrs).getD i zeroAttr]).writeAt attrs.id (attrs.off + i) [zeroAttr],
               true, stored) := by
          simp only [extractStep, hidx, hchg, if_true]
        rw [hse]
        have hstored := h2 hchg
        obtain ⟨r1, r2, r3⟩ :=
          ih ((ah.writeAt stored.id (stored.off + idx)
                [(ah.read attrs).getD i zeroAttr]).writeAt attrs.id (attrs.off + i) [zeroAttr])
            true stored (by rw [writeAt_next, writeAt_next]; exact h1) (fun _ => hstored)
        refine ⟨?_, r2, r3⟩
        rw [r1, read_writeAt_ne _ _ _ _ _ (Ne.symm hta),
            read_writeAt_ne _ _ _ _ _ (Ne.symm hstored)]
      · simp only [Bool.not_eq_true] at hchg
        have hse : extractStep keys attrs (ah, chg, stored) i
            = (((⟨fun j => if j = ah.next then ah.read stored else ah.data j,
                   ah.next + 1⟩ : GHeap GAttr).writeAt ah.next (0 + idx)
                  [(ah.read attrs).getD i zeroAttr]).writeAt attrs.id (attrs.off + i) [zeroAttr],
               true, (⟨ah.next, 0, stored.len, stored.len⟩ : GoSlice)) := by
          simp only [extractStep, hidx, hchg, Bool.false_eq_true, if_false]
        rw [hse]
        have hfresh : t.id ≠ ah.next := by omega
        obtain ⟨r1, r2, r3⟩ :=
          ih (((⟨fun j => if j = ah.next then ah.read stored else ah.data j,
                 ah.next + 1⟩ : GHeap GAttr).writeAt ah.next (0 + idx)
                [(ah.read attrs).getD i zeroAttr]).writeAt attrs.id (attrs.off + i) [zeroAttr])
            true ⟨ah.next, 0, stored.len, stored.len⟩
            (by rw [writeAt_next, writeAt_next]; exact Nat.lt_succ_of_lt h1)
            (fun _ => hfresh)
        refine ⟨?_, r2, r3⟩
        rw [r1, read_writeAt_ne _ _ _ _ _ (Ne.symm hta),
            read_writeAt_ne _ _ _ _ _ (Ne.symm hfresh),
            read_alloc_ne _ _ _ hfresh]

/-- extractHeadersH preserves every slice that is neither the callers slice nor a
fresh allocation. -/
theorem extractHeadersH_preserve (keys : List String) (ah : GHeap GAttr)
    (stored attrs t : GoSlice) (hta : t.id ≠ attrs.id) (htn : t.id < ah.next) :
    (extractHeadersH keys ah stored attrs).1.read t = ah.read t ∧
    t.id < (extractHeadersH keys ah stored attrs).1.next := by
  unfold extractHeadersH
  obtain ⟨r1, r2, -⟩ :=
    extract_fold_preserve keys attrs t hta (List.range attrs.len) ah false stored htn
      (by simp)
  exact ⟨r1, r2⟩

/-- WithAttrs leaves the handler it was called on observationally unchanged: the
same options, group path, context contents and header slot contents are read back
after the derivation. -/
theorem withAttrsH_toFunc (hs : Heaps) (h : HHandler) (attrs : GoSlice)
    (hctx_wf : SliceWf hs.ch h.ctx) (hctx_id : h.ctx.id < hs.ch.next)
    (hhdr_ne : h.hdrs.id ≠ attrs.id) (hhdr_id : h.hdrs.id < hs.ah.next) :
    toFunc (withAttrsH hs h attrs).1 h = toFunc hs h := by
  obtain ⟨ha1, -⟩ :=
    extractHeadersH_preserve h.headerKeys hs.ah h.hdrs attrs h.hdrs hhdr_ne hhdr_id
  obtain ⟨hc1, -, -, -, -, -, -, -⟩ :=
    appendFold_preserve h.ctx
      (((extractHeadersH h.headerKeys hs.ah h.hdrs attrs).1.read attrs).map
        (fun a => (renderA h.rw h.groups a).1)) hs.ch h.ctx
      (le_trans (by have := hctx_wf.1; omega) hctx_wf.2) hctx_id hctx_wf hctx_id
      (fun _ => ⟨rfl, le_refl _⟩)
  unfold toFunc withAttrsH
  simp only [FHandler.mk.injEq, true_and, and_true, eq_self_iff_true]
  exact ⟨hc1, ha1⟩

/-- C3: WithAttrs and WithGroup leave the handler they were called on
observationally unchanged - its options, group path, context contents and header
slots are untouched by the derivation - so a Handle call on the original handler
writes exactly the same bytes after the derivation as before it. -/
theorem C3_derivations_no_mutation :
    ∀ (hs : Heaps) (h : HHandler) (attrs : GoSlice) (name : String)
      (out : List Char → Option String) (rec : GoRecord),
      SliceWf hs.ch h.ctx → h.ctx.id < hs.ch.next →
      h.hdrs.id ≠ attrs.id → h.hdrs.id < hs.ah.next →
      (toFunc (withAttrsH hs h attrs).1 h = toFunc hs h ∧
       handleModel (toFunc (withAttrsH hs h attrs).1 h) out rec
         = handleModel (toFunc hs h) out rec) ∧
      (toFunc (withGroupHs hs h name).1 h = toFunc hs h ∧
       handleModel (toFunc (withGroupHs hs h name).1 h) out rec
         = handleModel (toFunc hs h) out rec) := by
  intro hs h attrs name out rec hwf hid hne hhid
  have hA := withAttrsH_toFunc hs h attrs hwf hid hne hhid
  exact ⟨⟨hA, by rw [hA]⟩, ⟨rfl, rfl⟩⟩

/-- C3 witness: the theorem applied at concrete heaps, a concrete handler, a
concrete attribute slice and record. -/
theorem C3_witness :
    (toFunc (withAttrsH hsW hW attrsW).1 hW = toFunc hsW hW ∧
     handleModel (toFunc (withAttrsH hsW hW attrsW).1 hW) okSink recBasic
       = handleModel (toFunc hsW hW) okSink recBasic) ∧
    (toFunc (withGroupHs hsW hW "g").1 hW = toFunc hsW hW ∧
     handleModel (toFunc (withGroupHs hsW hW "g").1 hW) okSink recBasic
       = handleModel (toFunc hsW hW) okSink recBasic) :=
  C3_derivations_no_mutation hsW hW attrsW "g" okSink recBasic
    ⟨by decide, by decide⟩ (by decide) (by decide) (by decide)

/-- C10: every handler returned by WithAttrs has the capacity of its context
slice clipped to its length; and for a parent whose context is clipped (the
invariant every reachable handler satisfies), two sibling WithAttrs derivations
append into storage the other cannot overwrite: the first siblings context reads
back unchanged after the second derivation. -/
theorem C10_clip_and_sibling_independence :
    ∀ (hs : Heaps) (h : HHandler) (as1 as2 : GoSlice),
      SliceWf hs.ch h.ctx → h.ctx.id < hs.ch.next → h.ctx.cap = h.ctx.len →
      ((withAttrsH hs h as1).2.ctx.cap = (withAttrsH hs h as1).2.ctx.len ∧
       (withAttrsH (withAttrsH hs h as1).1 h as2).1.ch.read (withAttrsH hs h as1).2.ctx
         = (withAttrsH hs h as1).1.ch.read (withAttrsH hs h as1).2.ctx) := by
  intro hs h as1 as2 hwf hid hcap
  refine ⟨rfl, ?_⟩
  obtain ⟨-, p2, p3, p4, p5, p6, p7, p8⟩ :=
    appendFold_preserve h.ctx
      (((extractHeadersH h.headerKeys hs.ah h.hdrs as1).1.read as1).map
        (fun a => (renderA h.rw h.groups a).1)) hs.ch h.ctx
      (le_trans (by have := hwf.1; omega) hwf.2) hid hwf hid
      (fun _ => ⟨rfl, le_refl _⟩)
  set r1 := (((extractHeadersH h.headerKeys hs.ah h.hdrs as1).1.read as1).map
      (fun a => (renderA h.rw h.groups a).1)).foldl
      (fun acc tok => sliceAppend acc.1 acc.2 tok) (hs.ch, h.ctx) with hr1
  have hclipid : r1.2.clip.id = r1.2.id := rfl
  have hclipoff : r1.2.clip.off = r1.2.off := rfl
  have hcliplen : r1.2.clip.len = r1.2.len := rfl
  have hW1 : (withAttrsH hs h as1).1.ch = r1.1 := rfl
  have hW2 : (withAttrsH hs h as1).2.ctx = r1.2.clip := rfl
  have hW3 : (withAttrsH (withAttrsH hs h as1).1 h as2).1.ch
      = ((((extractHeadersH h.headerKeys (withAttrsH hs h as1).1.ah h.hdrs as2).1.read as2).map
          (fun a => (renderA h.rw h.groups a).1)).foldl
          (fun acc tok => sliceAppend acc.1 acc.2 tok) (r1.1, h.ctx)).1 := rfl
  obtain ⟨q1, -, -, -, -, -, -, -⟩ :=
    appendFold_preserve r1.2.clip
      (((extractHeadersH h.headerKeys (withAttrsH hs h as1).1.ah h.hdrs as2).1.read as2).map
        (fun a => (renderA h.rw h.groups a).1)) r1.1 h.ctx
      (by rw [hclipid, hclipoff, hcliplen]
          have h1 := p4.1
          have h2 := p4.2
          omega)
      (by rw [hclipid]; exact p5)
      ⟨hwf.1, by have := p2; omega⟩
      (by have := p7; omega)
      (fun hq => by
        rcases p8 with ⟨e1, e2, e3, e4⟩ | hfr
        · refine ⟨?_, ?_⟩
          · rw [hclipoff, e2]
          · rw [hcliplen]
            have h1 := p4.1
            omega
        · rw [hclipid] at hq
          exfalso
          omega)
  rw [hW2, hW3, hW1]
  exact q1

/-- C10 witness: the theorem applied at the concrete heap fixtures. -/
theorem C10_witness :
    ((withAttrsH hsW hW attrsW).2.ctx.cap = (withAttrsH hsW hW attrsW).2.ctx.len ∧
     (withAttrsH (withAttrsH hsW hW attrsW).1 hW attrsW).1.ch.read
        (withAttrsH hsW hW attrsW).2.ctx
       = (withAttrsH hsW hW attrsW).1.ch.read (withAttrsH hsW hW attrsW).2.ctx) :=
  C10_clip_and_sibling_independence hsW hW attrsW attrsW
    ⟨by decide, by decide⟩ (by decide) (by decide)

/-- Zeroing distributes over append. -/
theorem zeroedBy_append (keys : List String) (xs ys : List GAttr) :
    zeroedBy keys (xs ++ ys) = zeroedBy keys xs ++ zeroedBy keys ys := by
  simp [zeroedBy]

/-- The length of a zeroed list. -/
theorem zeroedBy_length (keys : List String) (xs : List GAttr) :
    (zeroedBy keys xs).length = xs.length := by
  simp [zeroedBy]

/-- Setting the cell right after a prefix replaces the head of the suffix. -/
theorem set_at_prefix_length {α : Type} (l1 : List α) (a x : α) (l2 : List α) (k : Nat)
    (hk : k = l1.length) : (l1 ++ a :: l2).set k x = l1 ++ x :: l2 := by
  subst hk
  have h := set_append_right l1 (a :: l2) 0 x
  simpa using h

/-- Processing the first n entries of the callers slice zeroes exactly the
matching ones among them: the slice reads back as the zeroed prefix plus the
untouched suffix; the extent stays valid, the allocation frontier is monotone
past the slice identifier, and the slot copy (once made) has a different
identifier from the callers slice. -/
theorem extract_fold_content (keys : List String) (attrs : GoSlice)
    (ah0 : GHeap GAttr) (stored0 : GoSlice)
    (hwf0 : attrs.off + attrs.len ≤ (ah0.data attrs.id).length)
    (hid0 : attrs.id < ah0.next) :
    ∀ n, n ≤ attrs.len →
      (((List.range n).foldl (extractStep keys attrs) (ah0, false, stored0)).1.read attrs
        = zeroedBy keys ((ah0.read attrs).take n) ++ (ah0.read attrs).drop n ∧
      attrs.off + attrs.len ≤
        ((((List.range n).foldl (extractStep keys attrs) (ah0, false, stored0)).1).data attrs.id).length ∧
      attrs.id < ((List.range n).foldl (extractStep keys attrs) (ah0, false, stored0)).1.next ∧
      (((List.range n).foldl (extractStep keys attrs) (ah0, false, stored0)).2.1 = true →
        ((List.range n).foldl (extractStep keys attrs) (ah0, false, stored0)).2.2.id ≠ attrs.id)) := by
  have horiglen : (ah0.read attrs).length = attrs.len := read_length _ _ hwf0
  intro n
  induction n with
  | zero =>
    intro _
    refine ⟨by simp [zeroedBy], hwf0, hid0, by simp⟩
  | succ n ih =>
    intro hn
    obtain ⟨ih1, ih2, ih3, ih4⟩ := ih (by omega)
    rw [List.range_succ, List.foldl_append, List.foldl_cons, List.foldl_nil]
    set acc := (List.range n).foldl (extractStep keys attrs) (ah0, false, stored0) with hacc
    set orig := ah0.read attrs with horig
    set pre := zeroedBy keys (orig.take n) with hpre
    have hnlt : n < orig.length := by omega
    have hprelen : pre.length = n := by
      rw [hpre, zeroedBy_length, List.length_take]
      omega
    have hsome : orig[n]? = some orig[n] := List.getElem?_eq_getElem hnlt
    have hgetD : orig.getD n zeroAttr = orig[n] := by
      rw [List.getD_eq_getElem?_getD, hsome]
      rfl
    have hdropn : orig.drop n = orig[n] :: orig.drop (n + 1) :=
      List.drop_eq_getElem_cons hnlt
    have htake : orig.take (n + 1) = orig.take n ++ [orig[n]] := by
      rw [List.take_succ, hsome]
      rfl
    have hget : (acc.1.read attrs).getD n zeroAttr = orig[n] := by
      rw [ih1, List.getD_eq_getElem?_getD,
          List.getElem?_append_right (le_of_eq hprelen)]
      rw [hprelen, Nat.sub_self, hdropn]
      simp only [List.getElem?_cons_zero, Option.getD_some]
    cases hidx : keys.findIdx? (fun s => s = (orig[n]).1) with
    | none =>
      have hse : extractStep keys attrs acc n = acc := by
        show extractStep keys attrs (acc.1, acc.2.1, acc.2.2) n = acc
        simp only [extractStep, hget, hidx]
      rw [hse]
      refine ⟨?_, ih2, ih3, ih4⟩
      rw [ih1, htake, zeroedBy_append, hdropn]
      have hz1 : zeroedBy keys [orig[n]] = [orig[n]] := by
        simp [zeroedBy, hidx]
      rw [hz1, List.append_assoc]
      rfl
    | some idx =>
      have hsetread : ∀ (ah2 : GHeap GAttr),
          ah2.read attrs = acc.1.read attrs →
          attrs.off + attrs.len ≤ (ah2.data attrs.id).length →
          (ah2.writeAt attrs.id (attrs.off + n) [zeroAttr]).read attrs
            = pre ++ zeroAttr :: orig.drop (n + 1) := by
        intro ah2 hr he
        rw [read_writeAt_set _ _ _ _ (by omega) he, hr, ih1]
        rw [hdropn, set_at_prefix_length _ _ _ _ _ hprelen.symm]
      have hgoalfmt : zeroedBy keys (orig.take (n + 1)) ++ orig.drop (n + 1)
          = pre ++ zeroAttr :: orig.drop (n + 1) := by
        rw [htake, zeroedBy_append]
        have hz1 : zeroedBy keys [orig[n]] = [zeroAttr] := by
          simp [zeroedBy, hidx]
        rw [hz1, List.append_assoc]
        rfl
      by_cases hchg : acc.2.1 = true
      · have hse : extractStep keys attrs acc n
            = ((acc.1.writeAt acc.2.2.id (acc.2.2.off + idx)
                  [orig[n]]).writeAt attrs.id (attrs.off + n) [zeroAttr],
               true, acc.2.2) := by
          show extractStep keys attrs (acc.1, acc.2.1, acc.2.2) n = _
          simp only [extractStep, hget, hidx, hchg, if_true]
        rw [hse]
        have hne1 : acc.2.2.id ≠ attrs.id := ih4 hchg
        have hr1 : (acc.1.writeAt acc.2.2.id (acc.2.2.off + idx) [orig[n]]).read attrs
            = acc.1.read attrs := read_writeAt_ne _ _ _ _ _ hne1
        have he1 : attrs.off + attrs.len
            ≤ ((acc.1.writeAt acc.2.2.id (acc.2.2.off + idx) [orig[n]]).data attrs.id).length := by
          rw [writeAt_data_other _ _ _ _ _ (Ne.symm hne1)]
          exact ih2
        refine ⟨by rw [hsetread _ hr1 he1, hgoalfmt], ?_, ?_, fun _ => hne1⟩
        · rw [writeAt_data_self]
          exact le_trans he1 (overwrite_length_ge _ _ _)
        · rw [writeAt_next, writeAt_next]
          exact ih3
      · simp only [Bool.not_eq_true] at hchg
        have hse : extractStep keys attrs acc n
            = ((((⟨fun j => if j = acc.1.next then acc.1.read acc.2.2 else acc.1.data j,
                    acc.1.next + 1⟩ : GHeap GAttr).writeAt acc.1.next (0 + idx)
                  [orig[n]]).writeAt attrs.id (attrs.off + n) [zeroAttr]),
               true, (⟨acc.1.next, 0, acc.2.2.len, acc.2.2.len⟩ : GoSlice)) := by
          show extractStep keys attrs (acc.1, acc.2.1, acc.2.2) n = _
          simp only [extractStep, hget, hidx, hchg, Bool.false_eq_true, if_false]
        rw [hse]
        have hnefresh : acc.1.next ≠ attrs.id := by omega
        have halloc : (⟨fun j => if j = acc.1.next then acc.1.read acc.2.2 else acc.1.data j,
            acc.1.next + 1⟩ : GHeap GAttr).read attrs = acc.1.read attrs :=
          read_alloc_ne _ _ _ (Ne.symm hnefresh)
        have hallocdata : (⟨fun j => if j = acc.1.next then acc.1.read acc.2.2 else acc.1.data j,
            acc.1.next + 1⟩ : GHeap GAttr).data attrs.id = acc.1.data attrs.id := by
          simp only
          exact if_neg (Ne.symm hnefresh)
        have hr1 : (((⟨fun j => if j = acc.1.next then acc.1.read acc.2.2 else acc.1.data j,
              acc.1.next + 1⟩ : GHeap GAttr).writeAt acc.1.next (0 + idx)
              [orig[n]])).read attrs = acc.1.read attrs := by
          rw [read_writeAt_ne _ _ _ _ _ hnefresh, halloc]
        have he1 : attrs.off + attrs.len
            ≤ ((((⟨fun j => if j = acc.1.next then acc.1.read acc.2.2 else acc.1.data j,
                  acc.1.next + 1⟩ : GHeap GAttr).writeAt acc.1.next (0 + idx)
                  [orig[n]])).data attrs.id).length := by
          rw [writeAt_data_other _ _ _ _ _ (Ne.symm hnefresh), hallocdata]
          exact ih2
        refine ⟨by rw [hsetread _ hr1 he1, hgoalfmt], ?_, ?_, fun _ => hnefresh⟩
        · rw [writeAt_data_self]
          exact le_trans he1 (overwrite_length_ge _ _ _)
        · rw [writeAt_next, writeAt_next]
          simp only
          omega

/-- C9: WithAttrs with configured header keys mutates its argument slice in
place: every entry whose key equals a configured header key is overwritten with
the zero attribute (its value is captured into the new handlers slots), and the
entries with non-matching keys are left unchanged. -/
theorem C9_withattrs_zeroes_matching_entries :
    ∀ (hs : Heaps) (h : HHandler) (attrs : GoSlice),
      attrs.id < hs.ah.next →
      attrs.off + attrs.len ≤ (hs.ah.data attrs.id).length →
      (withAttrsH hs h attrs).1.ah.read attrs
        = zeroedBy h.headerKeys (hs.ah.read attrs) := by
  intro hs h attrs hid hwf
  have hr : (withAttrsH hs h attrs).1.ah
      = (extractHeadersH h.headerKeys hs.ah h.hdrs attrs).1 := rfl
  rw [hr]
  unfold extractHeadersH
  obtain ⟨r1, -, -, -⟩ :=
    extract_fold_content h.headerKeys attrs hs.ah h.hdrs hwf hid attrs.len (le_refl _)
  rw [r1]
  have hlen : (hs.ah.read attrs).length = attrs.len := read_length _ _ hwf
  rw [List.take_of_length_le (by omega), List.drop_of_length_le (by omega),
      List.append_nil]

/-- C9 witness: the theorem applied at the concrete fixtures, where the first
entry matches the configured header key and the second does not. -/
theorem C9_witness :
    (withAttrsH hsW hW attrsW).1.ah.read attrsW
      = zeroedBy hW.headerKeys (hsW.ah.read attrsW) :=
  C9_withattrs_zeroes_matching_entries hsW hW attrsW (by decide) (by decide)

/-- The generalized walk of Handle over the attribute heap: the stored slots
read back unchanged, the local slots accumulate the matches by index starting
from the current local readout, and middle and trailer take exactly the kept and
the relocated tokens. -/
theorem hAttrLoop_go (h : HHandler) (stored : GoSlice) (ah0 : GHeap GAttr)
    (hkey : stored.len = h.headerKeys.length) :
    ∀ (as : List GAttr) (st : HLoopSt),
      st.ah.read stored = ah0.read stored →
      stored.off + stored.len ≤ (st.ah.data stored.id).length →
      stored.id < st.ah.next →
      (st.localHeaders = false ∧ st.hdrs = stored ∨
       st.localHeaders = true ∧ st.hdrs.off = 0 ∧ st.hdrs.len = stored.len ∧
         stored.id ≠ st.hdrs.id ∧ st.hdrs.len ≤ (st.ah.data st.hdrs.id).length) →
      ((as.foldl (hAttrStep h) st).ah.read stored = ah0.read stored ∧
       (as.foldl (hAttrStep h) st).ah.read (as.foldl (hAttrStep h) st).hdrs
         = applyMatches h.headerKeys (st.ah.read st.hdrs) as ∧
       (as.foldl (hAttrStep h) st).middle
         = st.middle ++ (clToks (walkToks h.headerKeys h.rw h.groups as)).flatten ∧
       (as.foldl (hAttrStep h) st).trailer
         = st.trailer ++ (nlToks (walkToks h.headerKeys h.rw h.groups as)).flatten) := by
  intro as
  induction as with
  | nil =>
    intro st h1 h2 h3 h4
    refine ⟨h1, rfl, ?_, ?_⟩ <;>
      simp [walkToks, clToks, nlToks, applyMatches]
  | cons a rest ih =>
    intro st h1 h2 h3 h4
    rw [List.foldl_cons]
    cases hidx : h.headerKeys.findIdx? (fun s => s = a.1) with
    | none =>
      have hse : hAttrStep h st a
          = (if '\n' ∈ (renderA h.rw h.groups a).1 then
               { st with middle := st.middle, trailer := st.trailer ++ (renderA h.rw h.groups a).1 }
             else
               { st with middle := st.middle ++ (renderA h.rw h.groups a).1 }) := by
        unfold hAttrStep
        simp only [hidx, List.drop_left, List.take_left]
      rw [hse]
      by_cases hnl : '\n' ∈ (renderA h.rw h.groups a).1
      · rw [if_pos hnl]
        obtain ⟨r1, r2, r3, r4⟩ :=
          ih { st with middle := st.middle, trailer := st.trailer ++ (renderA h.rw h.groups a).1 }
            h1 h2 h3 h4
        refine ⟨r1, ?_, ?_, ?_⟩
        · rw [r2]
          simp [applyMatches, hidx]
        · rw [r3]
          simp [walkToks, hidx, clToks, hnl]
        · rw [r4]
          simp [walkToks, hidx, nlToks, hnl]
      · rw [if_neg hnl]
        obtain ⟨r1, r2, r3, r4⟩ :=
          ih { st with middle := st.middle ++ (renderA h.rw h.groups a).1 }
            h1 h2 h3 h4
        refine ⟨r1, ?_, ?_, ?_⟩
        · rw [r2]
          simp [applyMatches, hidx]
        · rw [r3]
          simp [walkToks, hidx, clToks, hnl]
        · rw [r4]
          simp [walkToks, hidx, nlToks, hnl]
    | some idx =>
      have hidxlt : idx < h.headerKeys.length := findIdx?_lt_length _ _ hidx
      by_cases hloc : st.localHeaders = true
      · -- slots already local: write by index in place
        have h4r : st.localHeaders = true ∧ st.hdrs.off = 0 ∧ st.hdrs.len = stored.len ∧
            stored.id ≠ st.hdrs.id ∧ st.hdrs.len ≤ (st.ah.data st.hdrs.id).length := by
          rcases h4 with ⟨e1, -⟩ | hr
          · rw [hloc] at e1
            simp at e1
          · exact hr
        obtain ⟨-, e2, e3, e4, e5⟩ := h4r
        have hse : hAttrStep h st a
            = { st with ah := st.ah.writeAt st.hdrs.id (st.hdrs.off + idx) [a],
                        localHeaders := true } := by
          unfold hAttrStep
          simp only [hidx, hloc, if_true]
        rw [hse]
        have hwrread : (st.ah.writeAt st.hdrs.id (st.hdrs.off + idx) [a]).read stored
            = st.ah.read stored := read_writeAt_ne _ _ _ _ _ (Ne.symm e4)
        have hwrhdrs : (st.ah.writeAt st.hdrs.id (st.hdrs.off + idx) [a]).read st.hdrs
            = (st.ah.read st.hdrs).set idx a :=
          read_writeAt_set _ _ _ _ (by omega) (by omega)
        obtain ⟨r1, r2, r3, r4⟩ :=
          ih { st with ah := st.ah.writeAt st.hdrs.id (st.hdrs.off + idx) [a],
                       localHeaders := true }
            (show (st.ah.writeAt st.hdrs.id (st.hdrs.off + idx) [a]).read stored
                = ah0.read stored by rw [hwrread, h1])
            (show stored.off + stored.len
                ≤ ((st.ah.writeAt st.hdrs.id (st.hdrs.off + idx) [a]).data stored.id).length by
              rw [writeAt_data_other _ _ _ _ _ e4]
              exact h2)
            (show stored.id < (st.ah.writeAt st.hdrs.id (st.hdrs.off + idx) [a]).next by
              rw [writeAt_next]
              exact h3)
            (Or.inr ⟨rfl, e2, e3, e4,
              show st.hdrs.len
                  ≤ ((st.ah.writeAt st.hdrs.id (st.hdrs.off + idx) [a]).data st.hdrs.id).length by
                rw [writeAt_data_self]
                exact le_trans e5 (overwrite_length_ge _ _ _)⟩)
        refine ⟨r1, ?_, ?_, ?_⟩
        · rw [r2, hwrhdrs]
          simp [applyMatches, hidx]
        · rw [r3]
          simp [walkToks, hidx]
        · rw [r4]
          simp [walkToks, hidx]
      · -- first match: copy the inherited slots into a fresh scratch slice
        simp only [Bool.not_eq_true] at hloc
        have estored : st.hdrs = stored := by
          rcases h4 with ⟨-, e2⟩ | ⟨e1, -⟩
          · exact e2
          · rw [hloc] at e1
            simp at e1
        have hbs : (st.ah.read st.hdrs).length = stored.len := by
          rw [estored]
          exact read_length _ _ h2
        have hkpos : 0 < h.headerKeys.length := by omega
        have hno : ¬ ((0 : Nat) + (st.ah.read st.hdrs).length ≤ 0) := by omega
        have hsa : sliceAppend st.ah (⟨0, 0, 0, 0⟩ : GoSlice) (st.ah.read st.hdrs)
            = ({ data := fun j => if j = st.ah.next then st.ah.read st.hdrs else st.ah.data j,
                 next := st.ah.next + 1 },
               (⟨st.ah.next, 0, (st.ah.read st.hdrs).length,
                 (st.ah.read st.hdrs).length⟩ : GoSlice)) := by
          unfold sliceAppend
          rw [if_neg hno]
          simp [GHeap.read]
        have hse : hAttrStep h st a
            = { st with
                ah := (⟨fun j => if j = st.ah.next then st.ah.read st.hdrs else st.ah.data j,
                        st.ah.next + 1⟩ : GHeap GAttr).writeAt st.ah.next (0 + idx) [a],
                localHeaders := true,
                hdrs := (⟨st.ah.next, 0, (st.ah.read st.hdrs).length,
                          (st.ah.read st.hdrs).length⟩ : GoSlice) } := by
          unfold hAttrStep
          simp only [hidx, hloc, Bool.false_eq_true, if_false, hsa]
        rw [hse]
        have hfresh : stored.id ≠ st.ah.next := by omega
        have halloc : (⟨fun j => if j = st.ah.next then st.ah.read st.hdrs else st.ah.data j,
            st.ah.next + 1⟩ : GHeap GAttr).read stored = st.ah.read stored :=
          read_alloc_ne _ _ _ hfresh
        have hallocdata : (⟨fun j => if j = st.ah.next then st.ah.read st.hdrs else st.ah.data j,
            st.ah.next + 1⟩ : GHeap GAttr).data stored.id = st.ah.data stored.id := by
          simp only
          exact if_neg hfresh
        have hfrslice : ((⟨fun j => if j = st.ah.next then st.ah.read st.hdrs else st.ah.data j,
            st.ah.next + 1⟩ : GHeap GAttr)).read
              (⟨st.ah.next, 0, (st.ah.read st.hdrs).length,
                (st.ah.read st.hdrs).length⟩ : GoSlice) = st.ah.read st.hdrs := by
          simp [GHeap.read]
        have hwr : ((⟨fun j => if j = st.ah.next then st.ah.read st.hdrs else st.ah.data j,
            st.ah.next + 1⟩ : GHeap GAttr).writeAt st.ah.next (0 + idx) [a]).read
              (⟨st.ah.next, 0, (st.ah.read st.hdrs).length,
                (st.ah.read st.hdrs).length⟩ : GoSlice)
            = (st.ah.read st.hdrs).set idx a := by
          have hs := read_writeAt_set
            (⟨fun j => if j = st.ah.next then st.ah.read st.hdrs else st.ah.data j,
              st.ah.next + 1⟩ : GHeap GAttr)
            (⟨st.ah.next, 0, (st.ah.read st.hdrs).length,
              (st.ah.read st.hdrs).length⟩ : GoSlice) idx a (by simp only; omega)
            (by simp)
          rw [hs, hfrslice]
        obtain ⟨r1, r2, r3, r4⟩ :=
          ih { st with
               ah := (⟨fun j => if j = st.ah.next then st.ah.read st.hdrs else st.ah.data j,
                       st.ah.next + 1⟩ : GHeap GAttr).writeAt st.ah.next (0 + idx) [a],
               localHeaders := true,
               hdrs := (⟨st.ah.next, 0, (st.ah.read st.hdrs).length,
                         (st.ah.read st.hdrs).length⟩ : GoSlice) }
            (show ((⟨fun j => if j = st.ah.next then st.ah.read st.hdrs else st.ah.data j,
                    st.ah.next + 1⟩ : GHeap GAttr).writeAt st.ah.next (0 + idx) [a]).read stored
                = ah0.read stored by
              rw [read_writeAt_ne _ _ _ _ _ (Ne.symm hfresh), halloc, h1])
            (show stored.off + stored.len
                ≤ (((⟨fun j => if j = st.ah.next then st.ah.read st.hdrs else st.ah.data j,
                      st.ah.next + 1⟩ : GHeap GAttr).writeAt st.ah.next (0 + idx)
                      [a]).data stored.id).length by
              rw [writeAt_data_other _ _ _ _ _ hfresh, hallocdata]
              exact h2)
            (show stored.id
                < ((⟨fun j => if j = st.ah.next then st.ah.read st.hdrs else st.ah.data j,
                    st.ah.next + 1⟩ : GHeap GAttr).writeAt st.ah.next (0 + idx) [a]).next by
              rw [writeAt_next]
              simp only
              omega)
            (Or.inr ⟨rfl, rfl, by simp [hbs], by simp [hfresh], by
              show (st.ah.read st.hdrs).length
                  ≤ (((⟨fun j => if j = st.ah.next then st.ah.read st.hdrs else st.ah.data j,
                        st.ah.next + 1⟩ : GHeap GAttr).writeAt st.ah.next (0 + idx)
                        [a]).data st.ah.next).length
              rw [writeAt_data_self]
              have hc : ((⟨fun j => if j = st.ah.next then st.ah.read st.hdrs else st.ah.data j,
                  st.ah.next + 1⟩ : GHeap GAttr).data st.ah.next)
                  = st.ah.read st.hdrs := by simp
              rw [hc]
              exact overwrite_length_ge _ _ _⟩)
        refine ⟨r1, ?_, ?_, ?_⟩
        · rw [r2, hwr]
          simp [applyMatches, hidx]
        · rw [r3]
          simp [walkToks, hidx]
        · rw [r4]
          simp [walkToks, hidx]

/-- C8: during the walk of Handle, a record attribute whose key matches a
configured header key is stored into the slot array by index instead of being
written inline; the first such match copies the inherited slots into a per-call
scratch array before any slot write; and after the walk the handlers own stored
slots read back byte for byte what they were before the call. -/
theorem C8_header_slots_copy_on_write :
    ∀ (h : HHandler) (ah : GHeap GAttr) (stored : GoSlice) (m0 : List Char)
      (as : List GAttr),
      stored.off + stored.len ≤ (ah.data stored.id).length →
      stored.id < ah.next →
      stored.len = h.headerKeys.length →
      ((hAttrLoop h ah stored m0 as).ah.read stored = ah.read stored ∧
       (hAttrLoop h ah stored m0 as).ah.read (hAttrLoop h ah stored m0 as).hdrs
         = applyMatches h.headerKeys (ah.read stored) as ∧
       (hAttrLoop h ah stored m0 as).middle
         = m0 ++ (clToks (walkToks h.headerKeys h.rw h.groups as)).flatten ∧
       (hAttrLoop h ah stored m0 as).trailer
         = (nlToks (walkToks h.headerKeys h.rw h.groups as)).flatten) := by
  intro h ah stored m0 as hwf hid hkey
  obtain ⟨r1, r2, r3, r4⟩ :=
    hAttrLoop_go h stored ah hkey as
      { ah := ah, localHeaders := false, hdrs := stored, middle := m0, trailer := [] }
      rfl hwf hid (Or.inl ⟨rfl, rfl⟩)
  exact ⟨r1, r2, r3, r4⟩

/-- C8 witness: the theorem applied at the concrete fixtures, with one matching
and one plain record attribute. -/
theorem C8_witness :
    ((hAttrLoop hW ahW hW.hdrs [] asW).ah.read hW.hdrs = ahW.read hW.hdrs ∧
     (hAttrLoop hW ahW hW.hdrs [] asW).ah.read (hAttrLoop hW ahW hW.hdrs [] asW).hdrs
       = applyMatches hW.headerKeys (ahW.read hW.hdrs) asW ∧
     (hAttrLoop hW ahW hW.hdrs [] asW).middle
       = [] ++ (clToks (walkToks hW.headerKeys hW.rw hW.groups asW)).flatten ∧
     (hAttrLoop hW ahW hW.hdrs [] asW).trailer
       = (nlToks (walkToks hW.headerKeys hW.rw hW.groups asW)).flatten) :=
  C8_header_slots_copy_on_write hW ahW hW.hdrs [] asW (by decide) (by decide) (by decide)

end ConsoleSlog
